import Mathlib

/-!
Verification of the LSP framing proxy scripts of this repository
(the csharp variant in `src/unnamed/part_000` and the near-identical
typescript variant in `src/plugins/typescript-lsp/lsp-proxy.mjs`).

The byte streams are modelled as `List Nat` (one entry per wire symbol;
multi-byte UTF-8 sequences are abstracted as single symbols, and JSON
numbers are modelled as integers).  Every definition below is a direct
transliteration of the corresponding JavaScript function, and all
definitions are structurally recursive so that concrete inputs evaluate
inside the kernel.
-/

/-- ASCII code points of a Lean string literal, used to write byte
constants readably. -/
def asciiOf (s : String) : List Nat := s.toList.map Char.toNat

/-- The 4-byte header/body separator `\r\n\r\n` searched for by
`buffer.indexOf` in `createMessageParser`. -/
def crlf2 : List Nat := [13, 10, 13, 10]

/-- Index of the first occurrence of `\r\n\r\n`, mirroring
`buffer.indexOf("\r\n\r\n")` (returns `none` for the source's `-1`). -/
def findSep : List Nat → Option Nat
  | [] => none
  | a :: t =>
    if (a :: t).take 4 = crlf2 then some 0
    else (findSep t).map (· + 1)

theorem findSep_bound : ∀ (l : List Nat) (s : Nat), findSep l = some s → s + 4 ≤ l.length := by
  intro l
  induction l with
  | nil => intro s h; simp [findSep] at h
  | cons a t ih =>
    intro s h
    rw [findSep] at h
    by_cases hs : (a :: t).take 4 = crlf2
    · rw [if_pos hs] at h
      have h0 : s = 0 := by simpa using h.symm
      subst h0
      have : ((a :: t).take 4).length = 4 := by rw [hs]; rfl
      have h4 : min 4 (a :: t).length = 4 := by simpa using this
      have : 4 ≤ (a :: t).length := by omega
      omega
    · rw [if_neg hs] at h
      cases ht : findSep t with
      | none => rw [ht] at h; simp at h
      | some s0 =>
        rw [ht] at h
        simp only [Option.map_some'] at h
        have hs0 := ih s0 ht
        have hss : s = s0 + 1 := by
          have := Option.some.inj h
          omega
        simp only [List.length_cons]
        omega

theorem findSep_append (c : List Nat) :
    ∀ (l : List Nat) (s : Nat), findSep l = some s → findSep (l ++ c) = some s := by
  intro l
  induction l with
  | nil => intro s h; simp [findSep] at h
  | cons a t ih =>
    intro s h
    rw [findSep] at h
    have hlen : 4 ≤ (a :: t).length := by
      by_cases hs : (a :: t).take 4 = crlf2
      · have : ((a :: t).take 4).length = 4 := by rw [hs]; rfl
        have h4 : min 4 (a :: t).length = 4 := by simpa using this
        omega
      · rw [if_neg hs] at h
        cases ht : findSep t with
        | none => rw [ht] at h; simp at h
        | some s0 =>
          have := findSep_bound t s0 ht
          simp only [List.length_cons]
          omega
    have htake : ((a :: t) ++ c).take 4 = (a :: t).take 4 :=
      List.take_append_of_le_length hlen
    rw [List.cons_append, findSep, ← List.cons_append, htake]
    by_cases hs : (a :: t).take 4 = crlf2
    · rw [if_pos hs] at h ⊢; exact h
    · rw [if_neg hs] at h ⊢
      cases ht : findSep t with
      | none => rw [ht] at h; simp at h
      | some s0 =>
        rw [ht] at h
        rw [ih s0 ht]
        exact h

/-- If a list contains no carriage return, the first separator of
`l ++ \r\n\r\n ++ b` sits exactly at `l.length`. -/
theorem findSep_header (b : List Nat) :
    ∀ (l : List Nat), (∀ x ∈ l, x ≠ 13) → findSep (l ++ (crlf2 ++ b)) = some l.length := by
  intro l
  induction l with
  | nil =>
    intro _
    simp only [List.nil_append, List.length_nil]
    rw [show crlf2 ++ b = 13 :: (10 :: 13 :: 10 :: b) by rfl]
    rw [findSep]
    simp [crlf2]
  | cons a t ih =>
    intro hcr
    have ha : a ≠ 13 := hcr a (by simp)
    rw [List.cons_append, findSep]
    have : ((a :: (t ++ (crlf2 ++ b)))).take 4 ≠ crlf2 := by
      intro hcontra
      have : a = 13 := by
        have h4 := congrArg (fun l => l.head?) hcontra
        simpa [crlf2] using h4
      exact ha this
    rw [if_neg this, ih (fun x hx => hcr x (by simp [hx]))]
    simp

/-- Decimal digit accumulation, mirroring `parseInt(match[1], 10)` on the
captured digit run (digits are ASCII codes). -/
def digitsToNat : List Nat → Nat → Nat
  | [], acc => acc
  | c :: t, acc => digitsToNat t (acc * 10 + (c - 48))

/-- Little-endian decimal digits of `n` with explicit fuel, so that the
definition is structurally recursive and kernel-computable. -/
def natToRevDigits : Nat → Nat → List Nat
  | 0, _ => []
  | _ + 1, 0 => []
  | f + 1, n + 1 => (n + 1) % 10 :: natToRevDigits f ((n + 1) / 10)

/-- ASCII decimal representation of `n`, as produced by JavaScript template
interpolation of a number inside the `Content-Length` header. -/
def natDigits (n : Nat) : List Nat :=
  if n = 0 then [48] else ((natToRevDigits n n).reverse.map (· + 48))

theorem digitsToNat_append (a : Nat) (l1 l2 : List Nat) :
    digitsToNat (l1 ++ l2) a = digitsToNat l2 (digitsToNat l1 a) := by
  induction l1 generalizing a with
  | nil => simp only [List.nil_append, digitsToNat]
  | cons c t ih =>
    simp only [List.cons_append, digitsToNat]
    exact ih _

theorem natToRevDigits_spec : ∀ (f n acc : Nat), n ≤ f →
    digitsToNat (((natToRevDigits f n).map (· + 48)).reverse) acc =
      acc * 10 ^ (natToRevDigits f n).length + n := by
  intro f
  induction f with
  | zero =>
    intro n acc h
    have hn : n = 0 := by omega
    subst hn
    simp [natToRevDigits, digitsToNat]
  | succ f ih =>
    intro n acc h
    cases n with
    | zero => simp [natToRevDigits, digitsToNat]
    | succ m =>
      rw [natToRevDigits]
      have hdiv : (m + 1) / 10 ≤ f := by
        have := Nat.div_le_self (m + 1) 10
        have h2 : (m + 1) / 10 < m + 1 := Nat.div_lt_self (by omega) (by omega)
        omega
      simp only [List.map_cons, List.reverse_cons]
      rw [digitsToNat_append, ih _ acc hdiv]
      simp only [digitsToNat, List.length_cons]
      have hmod : (m + 1) % 10 + 48 - 48 = (m + 1) % 10 := by omega
      rw [hmod]
      have hx := Nat.mod_add_div (m + 1) 10
      ring_nf
      have hlen : 10 ^ ((natToRevDigits f ((m + 1) / 10)).length + 1) =
          10 ^ (natToRevDigits f ((m + 1) / 10)).length * 10 := by ring
      omega

theorem digitsToNat_natDigits (n : Nat) : digitsToNat (natDigits n) 0 = n := by
  by_cases h : n = 0
  · subst h; rfl
  · rw [natDigits, if_neg h]
    have recast : (natToRevDigits n n).reverse.map (· + 48) =
        ((natToRevDigits n n).map (· + 48)).reverse := by
      rw [List.map_reverse]
    rw [recast, natToRevDigits_spec n n 0 (le_refl n)]
    simp

theorem natToRevDigits_mem_lt : ∀ (f n d : Nat), d ∈ natToRevDigits f n → d < 10 := by
  intro f
  induction f with
  | zero => intro n d h; simp [natToRevDigits] at h
  | succ f ih =>
    intro n d h
    cases n with
    | zero => simp [natToRevDigits] at h
    | succ m =>
      rw [natToRevDigits] at h
      rcases List.mem_cons.mp h with h1 | h2
      · subst h1; exact Nat.mod_lt _ (by omega)
      · exact ih _ d h2

theorem natDigits_mem (n d : Nat) : d ∈ natDigits n → 48 ≤ d ∧ d ≤ 57 := by
  intro h
  rw [natDigits] at h
  by_cases hn : n = 0
  · rw [if_pos hn] at h; simp at h; omega
  · rw [if_neg hn] at h
    simp only [List.mem_map, List.mem_reverse] at h
    obtain ⟨x, hx, hd⟩ := h
    have := natToRevDigits_mem_lt n n x hx
    omega

theorem natDigits_ne_nil (n : Nat) : natDigits n ≠ [] := by
  rw [natDigits]
  by_cases hn : n = 0
  · rw [if_pos hn]; simp
  · rw [if_neg hn]
    cases n with
    | zero => exact absurd rfl hn
    | succ m => simp [natToRevDigits]

/-- Lower-casing of one ASCII character, for the case-insensitive header
name match of `/Content-Length:\s*(\d+)/i`. -/
def lowerByte (c : Nat) : Nat := if 65 ≤ c ∧ c ≤ 90 then c + 32 else c

/-- JavaScript regex `\s` restricted to the 7-bit range that
`toString("ascii")` can produce. -/
def isWSb (c : Nat) : Bool :=
  c = 32 || c = 9 || c = 10 || c = 11 || c = 12 || c = 13

/-- JavaScript regex `\d`. -/
def isDigitB (c : Nat) : Bool := 48 ≤ c && c ≤ 57

/-- The lower-cased header name `content-length:`. -/
def clKey : List Nat := [99, 111, 110, 116, 101, 110, 116, 45, 108, 101, 110, 103, 116, 104, 58]

/-- Attempt the regex `Content-Length:\s*(\d+)` anchored at the head of
the (already 7-bit-masked) header text. -/
def tryCL (l : List Nat) : Option Nat :=
  if (l.take 15).map lowerByte = clKey then
    match ((l.drop 15).dropWhile isWSb).takeWhile isDigitB with
    | [] => none
    | ds => some (digitsToNat ds 0)
  else none

/-- Scan every start position left to right, as `String.prototype.match`
does with a non-global, non-anchored regex. -/
def findCL : List Nat → Option Nat
  | [] => none
  | c :: t =>
    match tryCL (c :: t) with
    | some n => some n
    | none => findCL t

/-- `headerText.match(/Content-Length:\s*(\d+)/i)` composed with
`parseInt`, where `headerText = buffer.subarray(0, sep).toString("ascii")`
masks every byte to 7 bits. -/
def contentLength (header : List Nat) : Option Nat :=
  findCL (header.map (· % 128))

/-- The literal header prefix `Content-Length: ` written by the encoder. -/
def clPrefixBytes : List Nat :=
  [67, 111, 110, 116, 101, 110, 116, 45, 76, 101, 110, 103, 116, 104, 58, 32]

/-- `Content-Length: <n>\r\n\r\n`, the freshly computed frame header of
the re-encoder and of `sendToServer`. -/
def frameHeader (n : Nat) : List Nat := clPrefixBytes ++ natDigits n ++ crlf2

theorem map_mod_id (l : List Nat) (h : ∀ x ∈ l, x < 128) : l.map (· % 128) = l := by
  induction l with
  | nil => rfl
  | cons c t ih =>
    have hc : c % 128 = c := Nat.mod_eq_of_lt (h c (by simp))
    simp only [List.map_cons, hc, ih (fun x hx => h x (by simp [hx]))]

theorem takeWhile_eq_self (p : Nat → Bool) (l : List Nat) (h : ∀ x ∈ l, p x = true) :
    l.takeWhile p = l := by
  induction l with
  | nil => rfl
  | cons c t ih =>
    rw [List.takeWhile_cons, h c (by simp), ih (fun x hx => h x (by simp [hx]))]
    simp

theorem dropWhile_false_head (p : Nat → Bool) :
    ∀ (l : List Nat), (∀ c t, l = c :: t → p c = false) → l.dropWhile p = l := by
  intro l h
  cases l with
  | nil => rfl
  | cons c t => rw [List.dropWhile_cons, h c t rfl]; simp

/-- The extraction lemma: the canonical header produced by the encoder
parses back to the body length it was computed from. -/
theorem contentLength_canonical (n : Nat) :
    contentLength (clPrefixBytes ++ natDigits n) = some n := by
  have hlt : ∀ x ∈ clPrefixBytes ++ natDigits n, x < 128 := by
    intro x hx
    rcases List.mem_append.mp hx with h1 | h2
    · fin_cases h1 <;> omega
    · have := natDigits_mem n x h2; omega
  rw [contentLength, map_mod_id _ hlt]
  have hcons : clPrefixBytes ++ natDigits n = 67 :: ([111, 110, 116, 101, 110, 116, 45, 76, 101, 110, 103, 116, 104, 58, 32] ++ natDigits n) := rfl
  rw [hcons, findCL, ← hcons]
  have htry : tryCL (clPrefixBytes ++ natDigits n) = some n := by
    rw [tryCL]
    have htake : (clPrefixBytes ++ natDigits n).take 15 = clPrefixBytes.take 15 :=
      List.take_append_of_le_length (by simp [clPrefixBytes])
    have hkey : (clPrefixBytes.take 15).map lowerByte = clKey := by decide
    rw [htake, hkey, if_pos rfl]
    have hdrop : (clPrefixBytes ++ natDigits n).drop 15 = 32 :: natDigits n := by
      rw [List.drop_append_of_le_length (by simp [clPrefixBytes])]
      rfl
    rw [hdrop]
    have hds : (32 :: natDigits n).dropWhile isWSb = natDigits n := by
      rw [List.dropWhile_cons]
      simp only [show isWSb 32 = true from rfl, if_true]
      apply dropWhile_false_head
      intro c t hct
      have hc : c ∈ natDigits n := by rw [hct]; simp
      have := natDigits_mem n c hc
      simp [isWSb]; omega
    rw [hds]
    have hdig : (natDigits n).takeWhile isDigitB = natDigits n := by
      apply takeWhile_eq_self
      intro x hx
      have := natDigits_mem n x hx
      simp [isDigitB]; omega
    rw [hdig]
    have hne := natDigits_ne_nil n
    cases hd : natDigits n with
    | nil => exact absurd hd hne
    | cons d ds =>
      have hval : digitsToNat (d :: ds) 0 = n := by
        rw [← hd]; exact digitsToNat_natDigits n
      simp [hval]
  rw [htry]

/- JSON values as `JSON.parse` produces them, with numbers restricted to
integers and strings as lists of code units.  `JsonList` and `JsonKVs`
unfold the nested lists so that all recursion stays structural. -/
mutual
inductive Json where
  | null : Json
  | bool : Bool → Json
  | num : Int → Json
  | str : List Nat → Json
  | arr : JsonList → Json
  | obj : JsonKVs → Json
  deriving DecidableEq
inductive JsonList where
  | nil : JsonList
  | cons : Json → JsonList → JsonList
  deriving DecidableEq
inductive JsonKVs where
  | nil : JsonKVs
  | cons : List Nat → Json → JsonKVs → JsonKVs
  deriving DecidableEq
end

/-- Lower-case hex digit, as produced by `JSON.stringify` in `\u00xx`
escapes. -/
def hexDigitChar (d : Nat) : Nat := if d < 10 then 48 + d else 87 + d

/-- `JSON.stringify` escaping of one string code unit. -/
def escapeByte (c : Nat) : List Nat :=
  if c = 34 then [92, 34]
  else if c = 92 then [92, 92]
  else if c = 8 then [92, 98]
  else if c = 9 then [92, 116]
  else if c = 10 then [92, 110]
  else if c = 12 then [92, 102]
  else if c = 13 then [92, 114]
  else if c < 32 then [92, 117, 48, 48, hexDigitChar (c / 16), hexDigitChar (c % 16)]
  else [c]

def escString : List Nat → List Nat
  | [] => []
  | c :: t => escapeByte c ++ escString t

/-- Decimal rendering of a JavaScript integer. -/
def intDigits (n : Int) : List Nat :=
  if n < 0 then 45 :: natDigits n.natAbs else natDigits n.toNat

/- `JSON.stringify`: compact serialization, no insignificant whitespace,
object members in insertion order. -/
mutual
def stringify : Json → List Nat
  | .null => [110, 117, 108, 108]
  | .bool true => [116, 114, 117, 101]
  | .bool false => [102, 97, 108, 115, 101]
  | .num n => intDigits n
  | .str s => 34 :: (escString s ++ [34])
  | .arr xs => 91 :: (stringifyElems xs ++ [93])
  | .obj kvs => 123 :: (stringifyKVs kvs ++ [125])
def stringifyElems : JsonList → List Nat
  | .nil => []
  | .cons v .nil => stringify v
  | .cons v (.cons w t) => stringify v ++ (44 :: stringifyElems (.cons w t))
def stringifyKVs : JsonKVs → List Nat
  | .nil => []
  | .cons k v .nil => (34 :: (escString k ++ [34])) ++ (58 :: stringify v)
  | .cons k v (.cons k2 v2 t) =>
    ((34 :: (escString k ++ [34])) ++ (58 :: stringify v)) ++
      (44 :: stringifyKVs (.cons k2 v2 t))
end

/-- JSON whitespace accepted between tokens by `JSON.parse`. -/
def jsonWS (c : Nat) : Bool := c = 32 || c = 9 || c = 10 || c = 13

def skipWs (l : List Nat) : List Nat := l.dropWhile jsonWS

def hexVal (c : Nat) : Option Nat :=
  if 48 ≤ c ∧ c ≤ 57 then some (c - 48)
  else if 97 ≤ c ∧ c ≤ 102 then some (c - 87)
  else if 65 ≤ c ∧ c ≤ 70 then some (c - 55)
  else none

/-- Short escapes understood by `JSON.parse`. -/
def escChar (e : Nat) : Option Nat :=
  if e = 34 then some 34
  else if e = 92 then some 92
  else if e = 47 then some 47
  else if e = 98 then some 8
  else if e = 102 then some 12
  else if e = 110 then some 10
  else if e = 114 then some 13
  else if e = 116 then some 9
  else none

/- String body parser: the input starts right after the opening quote and
the returned remainder right after the closing quote.  `parseEsc` handles
the character after a backslash. -/
mutual
def parseStr : List Nat → Option (List Nat × List Nat)
  | [] => none
  | c :: rest =>
    if c = 34 then some ([], rest)
    else if c = 92 then parseEsc rest
    else if c < 32 then none
    else
      match parseStr rest with
      | some (s, r3) => some (c :: s, r3)
      | none => none
def parseEsc : List Nat → Option (List Nat × List Nat)
  | [] => none
  | e :: r =>
    if e = 117 then parseHex r
    else
      match escChar e with
      | some u =>
        match parseStr r with
        | some (s, r3) => some (u :: s, r3)
        | none => none
      | none => none
def parseHex : List Nat → Option (List Nat × List Nat)
  | h1 :: h2 :: h3 :: h4 :: r2 =>
    match hexVal h1, hexVal h2, hexVal h3, hexVal h4 with
    | some a, some b, some x, some d =>
      match parseStr r2 with
      | some (s, r3) => some ((((a * 16 + b) * 16 + x) * 16 + d) :: s, r3)
      | none => none
    | _, _, _, _ => none
  | _ => none
end

/-- Maximal digit run, as the number grammar of `JSON.parse` (restricted
to integers). -/
def parseNat (l : List Nat) : Option (Nat × List Nat) :=
  match l.takeWhile isDigitB with
  | [] => none
  | ds => some (digitsToNat ds 0, l.dropWhile isDigitB)

/-- Expect three given literal bytes (the tail of `null` / `true`). -/
def expect3 (a b c : Nat) (l : List Nat) : Option (List Nat) :=
  match l with
  | x :: y :: z :: r => if x = a ∧ y = b ∧ z = c then some r else none
  | _ => none

/-- Expect four given literal bytes (the tail of `false`). -/
def expect4 (a b c d : Nat) (l : List Nat) : Option (List Nat) :=
  match l with
  | x :: y :: z :: w :: r => if x = a ∧ y = b ∧ z = c ∧ w = d then some r else none
  | _ => none

/- Recursive-descent value parser of `JSON.parse`, with fuel bounding the
nesting depth so that recursion is structural. -/
mutual
def parseValue : Nat → List Nat → Option (Json × List Nat)
  | 0, _ => none
  | f + 1, input =>
    match skipWs input with
    | [] => none
    | c :: rest =>
      if c = 110 then
        match expect3 117 108 108 rest with
        | some r => some (.null, r)
        | none => none
      else if c = 116 then
        match expect3 114 117 101 rest with
        | some r => some (.bool true, r)
        | none => none
      else if c = 102 then
        match expect4 97 108 115 101 rest with
        | some r => some (.bool false, r)
        | none => none
      else if c = 34 then
        match parseStr rest with
        | some (s, r) => some (.str s, r)
        | none => none
      else if c = 91 then
        match skipWs rest with
        | [] => none
        | d :: r2 =>
          if d = 93 then some (.arr .nil, r2)
          else
            match parseElems f (d :: r2) with
            | some (xs, r3) => some (.arr xs, r3)
            | none => none
      else if c = 123 then
        match skipWs rest with
        | [] => none
        | d :: r2 =>
          if d = 125 then some (.obj .nil, r2)
          else
            match parseMembers f (d :: r2) with
            | some (kvs, r3) => some (.obj kvs, r3)
            | none => none
      else if c = 45 then
        match parseNat rest with
        | some (n, r) => some (.num (-(n : Int)), r)
        | none => none
      else if isDigitB c then
        match parseNat (c :: rest) with
        | some (n, r) => some (.num (n : Int), r)
        | none => none
      else none
def parseElems : Nat → List Nat → Option (JsonList × List Nat)
  | 0, _ => none
  | f + 1, input =>
    match parseValue f input with
    | none => none
    | some (v, r) =>
      match skipWs r with
      | [] => none
      | d :: r2 =>
        if d = 44 then
          match parseElems f r2 with
          | some (vs, r3) => some (.cons v vs, r3)
          | none => none
        else if d = 93 then some (.cons v .nil, r2)
        else none
def parseMembers : Nat → List Nat → Option (JsonKVs × List Nat)
  | 0, _ => none
  | f + 1, input =>
    match skipWs input with
    | [] => none
    | c :: r =>
      if c = 34 then
        match parseStr r with
        | none => none
        | some (k, r2) =>
          match skipWs r2 with
          | [] => none
          | d :: r3 =>
            if d = 58 then
              match parseValue f r3 with
              | none => none
              | some (v, r4) =>
                match skipWs r4 with
                | [] => none
                | e :: r5 =>
                  if e = 44 then
                    match parseMembers f r5 with
                    | some (kvs, r6) => some (.cons k v kvs, r6)
                    | none => none
                  else if e = 125 then some (.cons k v .nil, r5)
                  else none
            else none
      else none
end

/-- `JSON.parse(body)`: the whole input must be one value surrounded only
by whitespace. -/
def jsonParse (body : List Nat) : Option Json :=
  match parseValue (body.length + 1) body with
  | some (v, rest) => if skipWs rest = [] then some v else none
  | none => none

/-- The scheme prefix `file://` tested by `uri.startsWith("file://")`. -/
def fileSlashes : List Nat := asciiOf "file://"

/-- The canonical prefix `file:///` that every normalized URI receives. -/
def fileProto : List Nat := asciiOf "file:///"

/-- `path.replace(/\\/g, "/")`. -/
def backslashToSlash (path : List Nat) : List Nat :=
  path.map (fun c => if c = 92 then 47 else c)

/-- `path.replace(/\/+$/, "")`: remove the maximal trailing slash run. -/
def stripTrailingSlashes (path : List Nat) : List Nat :=
  (path.reverse.dropWhile (fun c => c = 47)).reverse

/-- `normalizeFileUri` from both proxy scripts: strip `^file:\/{2,3}`
(greedy, hence at most one slash beyond `file://`), turn backslashes into
slashes, strip a trailing slash run when the intermediate path is longer
than one character, and re-prefix with `file:///`. -/
def normalizeFileUri (uri : List Nat) : List Nat :=
  if uri.take 7 = fileSlashes then
    fileProto ++
      (fun path =>
        (fun p => if 1 < p.length then stripTrailingSlashes p else p)
          (backslashToSlash path))
        (if (uri.drop 7).take 1 = [47] then uri.drop 8 else uri.drop 7)
  else uri

/- `normalizeUris`: the recursive structural transform applied on the
client→server direction.  Strings that start with `file://` are rewritten
with `normalizeFileUri`; object keys are not touched. -/
mutual
def normalizeUris : Json → Json
  | .str s => if s.take 7 = fileSlashes then .str (normalizeFileUri s) else .str s
  | .arr xs => .arr (normalizeUrisList xs)
  | .obj kvs => .obj (normalizeUrisKVs kvs)
  | v => v
def normalizeUrisList : JsonList → JsonList
  | .nil => .nil
  | .cons v t => .cons (normalizeUris v) (normalizeUrisList t)
def normalizeUrisKVs : JsonKVs → JsonKVs
  | .nil => .nil
  | .cons k v t => .cons k (normalizeUris v) (normalizeUrisKVs t)
end

/-- JavaScript object property lookup on parsed JSON: with duplicate keys
from `JSON.parse`, the last binding wins. -/
def jsGet : JsonKVs → List Nat → Option Json
  | .nil, _ => none
  | .cons k v t, key =>
    match jsGet t key with
    | some r => some r
    | none => if k = key then some v else none

/-- Property access `msg.<key>` on a non-null JSON value: objects look the
key up, every other value yields `undefined` (here `none`).  Access on
`null` throws and is handled separately. -/
def jsProp (j : Json) (key : List Nat) : Option Json :=
  match j with
  | .obj kvs => jsGet kvs key
  | _ => none

/-- The three direction tags used by `log`. -/
inductive Direction where
  | clientToServer : Direction
  | serverToClient : Direction
  | proxyToServer : Direction
  deriving DecidableEq

/-- A log record's `message` field: the decoded (possibly transformed)
JSON value, or the raw-body fallback written by the catch handler. -/
inductive LogMsg where
  | msg : Json → LogMsg
  | raw : List Nat → LogMsg
  deriving DecidableEq

/-- Observable actions of one parser invocation: bytes handed to the
direction's `forward` callback, bytes written to the server's stdin by
`sendToServer`, and `log(...)` calls. -/
inductive Output where
  | forward : List Nat → Output
  | toServer : List Nat → Output
  | logEntry : Direction → LogMsg → Output
  deriving DecidableEq

/-- Result of the `intercept` callback: `false`, `true` together with the
effects it performed, or a thrown exception (property access on `null`). -/
inductive ICResult where
  | noIntercept : ICResult
  | intercepted : List Output → ICResult
  | threw : ICResult

/-- The option bag `{ transform, intercept }` of `createMessageParser`. -/
structure Cfg where
  transform : Option (Json → Json)
  intercept : Option (Json → ICResult)

/-- Re-serialization with a freshly computed header:
`Content-Length: ${body.length}\r\n\r\n` + `JSON.stringify(parsed)`. -/
def encode (v : Json) : List Nat := frameHeader (stringify v).length ++ stringify v

/-- A canonical frame around a given body, as built by the re-encoder and
by `sendToServer`. -/
def mkFrame (body : List Nat) : List Nat := frameHeader body.length ++ body

/-- Continuation of `handleBody` after the optional transform: log the
(transformed) message, consult `intercept`, and either re-encode with a
fresh header or fall back to the raw frame when the callback throws. -/
def handleParsed (cfg : Cfg) (dir : Direction) (raw body : List Nat) (v : Json) : List Output :=
  match cfg.intercept with
  | none => [.logEntry dir (.msg v), .forward (encode v)]
  | some ic =>
    match ic v with
    | .noIntercept => [.logEntry dir (.msg v), .forward (encode v)]
    | .intercepted outs => .logEntry dir (.msg v) :: outs
    | .threw => [.logEntry dir (.msg v), .logEntry dir (.raw body), .forward raw]

/-- The `try`/`catch` body of the parser loop once a complete frame is
available: parse, apply the optional transform, then hand over to
`handleParsed`; a body that fails to parse is logged as a raw fallback
and forwarded unchanged. -/
def handleBody (cfg : Cfg) (dir : Direction) (raw body : List Nat) : List Output :=
  match jsonParse body with
  | none => [.logEntry dir (.raw body), .forward raw]
  | some v0 =>
    match cfg.transform with
    | some t => handleParsed cfg dir raw body (t v0)
    | none => handleParsed cfg dir raw body v0

/-- The `while (true)` loop of `createMessageParser`, with fuel so that
recursion is structural; each iteration consumes at least four bytes, so
`buf.length` fuel always suffices (`drain` below fixes that choice). -/
def drainF (cfg : Cfg) (dir : Direction) : Nat → List Nat → List Output × List Nat
  | 0, buf => ([], buf)
  | fuel + 1, buf =>
    match findSep buf with
    | none => ([], buf)
    | some sep =>
      match contentLength (buf.take sep) with
      | none =>
        (fun r => (Output.forward (buf.take (sep + 4)) :: r.1, r.2))
          (drainF cfg dir fuel (buf.drop (sep + 4)))
      | some n =>
        if buf.length < sep + 4 + n then ([], buf)
        else
          (fun r =>
            (handleBody cfg dir (buf.take (sep + 4 + n)) ((buf.drop (sep + 4)).take n) ++ r.1,
             r.2))
            (drainF cfg dir fuel (buf.drop (sep + 4 + n)))

/-- One invocation of the chunk callback on an already-concatenated
buffer: drain every complete frame, return the emitted outputs and the
leftover bytes. -/
def drain (cfg : Cfg) (dir : Direction) (buf : List Nat) : List Output × List Nat :=
  drainF cfg dir buf.length buf

/-- Feeding a sequence of chunks one at a time, carrying the pending
buffer across calls exactly as the closure in the source does. -/
def feedAll (cfg : Cfg) (dir : Direction) : List Nat → List (List Nat) → List Output × List Nat
  | buf, [] => ([], buf)
  | buf, c :: cs =>
    (fun r1 =>
      (fun r2 => (r1.1 ++ r2.1, r2.2)) (feedAll cfg dir r1.2 cs))
      (drain cfg dir (buf ++ c))

theorem drainF_fuel_irrelevant (cfg : Cfg) (dir : Direction) :
    ∀ (f1 f2 : Nat) (buf : List Nat), buf.length ≤ f1 → buf.length ≤ f2 →
      drainF cfg dir f1 buf = drainF cfg dir f2 buf := by
  intro f1
  induction f1 with
  | zero =>
    intro f2 buf h1 h2
    have hb : buf = [] := List.length_eq_zero.mp (by omega)
    subst hb
    cases f2 with
    | zero => rfl
    | succ f => simp [drainF, findSep]
  | succ f1 ih =>
    intro f2 buf h1 h2
    cases f2 with
    | zero =>
      have hb : buf = [] := List.length_eq_zero.mp (by omega)
      subst hb
      simp [drainF, findSep]
    | succ f2 =>
      rw [drainF, drainF]
      cases hsep : findSep buf with
      | none => rfl
      | some sep =>
        have hbound := findSep_bound buf sep hsep
        simp only
        cases hcl : contentLength (buf.take sep) with
        | none =>
          simp only
          have hlen : (buf.drop (sep + 4)).length ≤ f1 := by
            simp only [List.length_drop]; omega
          have hlen2 : (buf.drop (sep + 4)).length ≤ f2 := by
            simp only [List.length_drop]; omega
          rw [ih f2 _ hlen hlen2]
        | some n =>
          simp only
          by_cases hlt : buf.length < sep + 4 + n
          · rw [if_pos hlt, if_pos hlt]
          · rw [if_neg hlt, if_neg hlt]
            have hlen : (buf.drop (sep + 4 + n)).length ≤ f1 := by
              simp only [List.length_drop]; omega
            have hlen2 : (buf.drop (sep + 4 + n)).length ≤ f2 := by
              simp only [List.length_drop]; omega
            rw [ih f2 _ hlen hlen2]

/-- One-step unfolding of `drain`, used everywhere in place of the
fuel-indexed definition. -/
theorem drain_eq (cfg : Cfg) (dir : Direction) (buf : List Nat) :
    drain cfg dir buf =
      match findSep buf with
      | none => ([], buf)
      | some sep =>
        match contentLength (buf.take sep) with
        | none =>
          (fun r => (Output.forward (buf.take (sep + 4)) :: r.1, r.2))
            (drain cfg dir (buf.drop (sep + 4)))
        | some n =>
          if buf.length < sep + 4 + n then ([], buf)
          else
            (fun r =>
              (handleBody cfg dir (buf.take (sep + 4 + n)) ((buf.drop (sep + 4)).take n) ++ r.1,
               r.2))
              (drain cfg dir (buf.drop (sep + 4 + n))) := by
  cases hl : buf.length with
  | zero =>
    have hb : buf = [] := List.length_eq_zero.mp hl
    subst hb
    simp [drain, drainF, findSep]
  | succ m =>
    rw [drain, hl, drainF]
    cases hsep : findSep buf with
    | none => rfl
    | some sep =>
      have hbound := findSep_bound buf sep hsep
      simp only
      cases hcl : contentLength (buf.take sep) with
      | none =>
        simp only
        have h1 : (buf.drop (sep + 4)).length ≤ m := by
          simp only [List.length_drop]; omega
        rw [show drain cfg dir (buf.drop (sep + 4)) =
            drainF cfg dir (buf.drop (sep + 4)).length (buf.drop (sep + 4)) from rfl]
        rw [drainF_fuel_irrelevant cfg dir m (buf.drop (sep + 4)).length _ h1 (le_refl _)]
      | some n =>
        simp only
        rw [← hl]
        by_cases hlt : buf.length < sep + 4 + n
        · rw [if_pos hlt, if_pos hlt]
        · rw [if_neg hlt, if_neg hlt]
          have h1 : (buf.drop (sep + 4 + n)).length ≤ m := by
            simp only [List.length_drop]; omega
          rw [show drain cfg dir (buf.drop (sep + 4 + n)) =
              drainF cfg dir (buf.drop (sep + 4 + n)).length (buf.drop (sep + 4 + n)) from rfl]
          rw [drainF_fuel_irrelevant cfg dir m (buf.drop (sep + 4 + n)).length _ h1 (le_refl _)]

theorem drain_append_aux (cfg : Cfg) (dir : Direction) :
    ∀ (fuel : Nat) (buf c : List Nat), buf.length ≤ fuel →
      drain cfg dir (buf ++ c) =
        ((drain cfg dir buf).1 ++ (drain cfg dir ((drain cfg dir buf).2 ++ c)).1,
         (drain cfg dir ((drain cfg dir buf).2 ++ c)).2) := by
  intro fuel
  induction fuel with
  | zero =>
    intro buf c h
    have hb : buf = [] := List.length_eq_zero.mp (by omega)
    subst hb
    have hnil : drain cfg dir [] = ([], []) := rfl
    rw [hnil]
    simp
  | succ fuel ih =>
    intro buf c h
    cases hsep : findSep buf with
    | none =>
      have hbuf : drain cfg dir buf = ([], buf) := by rw [drain_eq, hsep]
      rw [hbuf]
      simp
    | some sep =>
      have hbound := findSep_bound buf sep hsep
      have hsep2 : findSep (buf ++ c) = some sep := findSep_append c buf sep hsep
      have htakesep : (buf ++ c).take sep = buf.take sep :=
        List.take_append_of_le_length (by omega)
      cases hcl : contentLength (buf.take sep) with
      | none =>
        have hd4 : (buf ++ c).drop (sep + 4) = buf.drop (sep + 4) ++ c :=
          List.drop_append_of_le_length (by omega)
        have ht4 : (buf ++ c).take (sep + 4) = buf.take (sep + 4) :=
          List.take_append_of_le_length (by omega)
        have hlhs : drain cfg dir (buf ++ c) =
            (Output.forward (buf.take (sep + 4)) :: (drain cfg dir (buf.drop (sep + 4) ++ c)).1,
             (drain cfg dir (buf.drop (sep + 4) ++ c)).2) := by
          rw [drain_eq, hsep2]
          simp only [htakesep, hcl, hd4, ht4]
        have hrhs : drain cfg dir buf =
            (Output.forward (buf.take (sep + 4)) :: (drain cfg dir (buf.drop (sep + 4))).1,
             (drain cfg dir (buf.drop (sep + 4))).2) := by
          rw [drain_eq, hsep]
          simp only [hcl]
        have hlen : (buf.drop (sep + 4)).length ≤ fuel := by
          simp only [List.length_drop]; omega
        rw [hlhs, hrhs, ih (buf.drop (sep + 4)) c hlen]
        simp
      | some n =>
        by_cases hlt : buf.length < sep + 4 + n
        · have hbuf : drain cfg dir buf = ([], buf) := by
            rw [drain_eq, hsep]
            simp only [hcl]
            rw [if_pos hlt]
          rw [hbuf]
          simp
        · have hd4 : (buf ++ c).drop (sep + 4) = buf.drop (sep + 4) ++ c :=
            List.drop_append_of_le_length (by omega)
          have hdn : (buf ++ c).drop (sep + 4 + n) = buf.drop (sep + 4 + n) ++ c :=
            List.drop_append_of_le_length (by omega)
          have htn : (buf ++ c).take (sep + 4 + n) = buf.take (sep + 4 + n) :=
            List.take_append_of_le_length (by omega)
          have hbody : ((buf ++ c).drop (sep + 4)).take n = (buf.drop (sep + 4)).take n := by
            rw [hd4]
            exact List.take_append_of_le_length (by simp only [List.length_drop]; omega)
          have hnlt : ¬ (buf ++ c).length < sep + 4 + n := by
            simp only [List.length_append]; omega
          have hlhs : drain cfg dir (buf ++ c) =
              (handleBody cfg dir (buf.take (sep + 4 + n)) ((buf.drop (sep + 4)).take n) ++
                 (drain cfg dir (buf.drop (sep + 4 + n) ++ c)).1,
               (drain cfg dir (buf.drop (sep + 4 + n) ++ c)).2) := by
            rw [drain_eq, hsep2]
            simp only [htakesep, hcl]
            rw [if_neg hnlt]
            simp only [htn, hbody, hdn]
          have hrhs : drain cfg dir buf =
              (handleBody cfg dir (buf.take (sep + 4 + n)) ((buf.drop (sep + 4)).take n) ++
                 (drain cfg dir (buf.drop (sep + 4 + n))).1,
               (drain cfg dir (buf.drop (sep + 4 + n))).2) := by
            rw [drain_eq, hsep]
            simp only [hcl]
            rw [if_neg hlt]
          have hlen : (buf.drop (sep + 4 + n)).length ≤ fuel := by
            simp only [List.length_drop]; omega
          rw [hlhs, hrhs, ih (buf.drop (sep + 4 + n)) c hlen]
          simp

/-- Draining `buf ++ c` is the same as draining `buf` and then draining
the leftover with `c` appended: the incremental-reassembly property of
the pending buffer. -/
theorem drain_append (cfg : Cfg) (dir : Direction) (buf c : List Nat) :
    drain cfg dir (buf ++ c) =
      ((drain cfg dir buf).1 ++ (drain cfg dir ((drain cfg dir buf).2 ++ c)).1,
       (drain cfg dir ((drain cfg dir buf).2 ++ c)).2) :=
  drain_append_aux cfg dir buf.length buf c (le_refl _)

theorem drain_stuck_aux (cfg : Cfg) (dir : Direction) :
    ∀ (fuel : Nat) (buf : List Nat), buf.length ≤ fuel →
      drain cfg dir (drain cfg dir buf).2 = ([], (drain cfg dir buf).2) := by
  intro fuel
  induction fuel with
  | zero =>
    intro buf h
    have hb : buf = [] := List.length_eq_zero.mp (by omega)
    subst hb
    rfl
  | succ fuel ih =>
    intro buf h
    cases hsep : findSep buf with
    | none =>
      have hbuf : drain cfg dir buf = ([], buf) := by rw [drain_eq, hsep]
      rw [hbuf, hbuf]
    | some sep =>
      have hbound := findSep_bound buf sep hsep
      cases hcl : contentLength (buf.take sep) with
      | none =>
        have hbuf : (drain cfg dir buf).2 = (drain cfg dir (buf.drop (sep + 4))).2 := by
          rw [drain_eq, hsep]
          simp only [hcl]
        rw [hbuf]
        exact ih (buf.drop (sep + 4)) (by simp only [List.length_drop]; omega)
      | some n =>
        by_cases hlt : buf.length < sep + 4 + n
        · have hbuf : drain cfg dir buf = ([], buf) := by
            rw [drain_eq, hsep]
            simp only [hcl]
            rw [if_pos hlt]
          rw [hbuf]
          simp only
          rw [drain_eq, hsep]
          simp only [hcl]
          rw [if_pos hlt]
        · have hbuf : (drain cfg dir buf).2 = (drain cfg dir (buf.drop (sep + 4 + n))).2 := by
            rw [drain_eq, hsep]
            simp only [hcl]
            rw [if_neg hlt]
          rw [hbuf]
          exact ih (buf.drop (sep + 4 + n)) (by simp only [List.length_drop]; omega)

/-- The leftover buffer of a drain contains no further complete frame. -/
theorem drain_stuck (cfg : Cfg) (dir : Direction) (buf : List Nat) :
    drain cfg dir (drain cfg dir buf).2 = ([], (drain cfg dir buf).2) :=
  drain_stuck_aux cfg dir buf.length buf (le_refl _)

theorem feedAll_join (cfg : Cfg) (dir : Direction) :
    ∀ (chunks : List (List Nat)) (buf : List Nat), drain cfg dir buf = ([], buf) →
      feedAll cfg dir buf chunks = drain cfg dir (buf ++ chunks.flatten) := by
  intro chunks
  induction chunks with
  | nil =>
    intro buf h
    simp only [feedAll, List.flatten_nil, List.append_nil]
    exact h.symm
  | cons c cs ih =>
    intro buf h
    rw [feedAll]
    simp only
    have hstuck : drain cfg dir (drain cfg dir (buf ++ c)).2 =
        ([], (drain cfg dir (buf ++ c)).2) := drain_stuck cfg dir (buf ++ c)
    rw [ih (drain cfg dir (buf ++ c)).2 hstuck]
    have hj : buf ++ (c :: cs).flatten = (buf ++ c) ++ cs.flatten := by
      simp [List.flatten_cons, List.append_assoc]
    rw [hj, drain_append cfg dir (buf ++ c) cs.flatten]

/-- `INTERCEPTED_METHODS` of the csharp variant. -/
def interceptedMethods : List (List Nat) :=
  [asciiOf "client/registerCapability",
   asciiOf "window/workDoneProgress/create",
   asciiOf "window/workDoneProgress/cancel"]

/-- The reply object `{ jsonrpc: "2.0", id: msg.id, result: null }`. -/
def synthReply (idv : Json) : Json :=
  .obj (.cons (asciiOf "jsonrpc") (.str (asciiOf "2.0"))
    (.cons (asciiOf "id") idv
      (.cons (asciiOf "result") .null .nil)))

/-- The log payload `{ id: msg.id, intercepted: msg.method }`. -/
def interceptLogObj (idv : Json) (m : List Nat) : Json :=
  .obj (.cons (asciiOf "id") idv
    (.cons (asciiOf "intercepted") (.str m) .nil))

/-- The `intercept` callback of the csharp variant's server→client parser:
if `msg.id !== undefined` and the method is in the intercepted set, log
the event and write a synthesized null reply to the server's stdin; a
`null` message makes the property access throw inside the parser's `try`
block. -/
def csharpIntercept (msg : Json) : ICResult :=
  match msg with
  | .null => .threw
  | _ =>
    match jsProp msg (asciiOf "id") with
    | none => .noIntercept
    | some idv =>
      match jsProp msg (asciiOf "method") with
      | some (.str m) =>
        if m ∈ interceptedMethods then
          .intercepted
            [.logEntry .proxyToServer (.msg (interceptLogObj idv m)),
             .toServer (encode (synthReply idv))]
        else .noIntercept
      | _ => .noIntercept

/-- csharp variant, client→server parser options: URI normalization, no
interception. -/
def csharpClientCfg : Cfg := ⟨some normalizeUris, none⟩

/-- csharp variant, server→client parser options: no transform,
interception of unsupported methods. -/
def csharpServerCfg : Cfg := ⟨none, some csharpIntercept⟩

/-- typescript variant, client→server parser options. -/
def tsClientCfg : Cfg := ⟨some normalizeUris, none⟩

/-- typescript variant, server→client parser options: plain relay. -/
def tsServerCfg : Cfg := ⟨none, none⟩

/-- The two per-direction pending buffers of the csharp proxy. -/
structure ProxyState where
  clientBuf : List Nat
  serverBuf : List Nat
  deriving DecidableEq

/-- The events the csharp proxy registers handlers for. -/
inductive Event where
  | stdinData : List Nat → Event
  | stdinEnd : Event
  | stdinError : Event
  | stdoutError : Event
  | childStdoutData : List Nat → Event
  | childExited : Option Int → Option (List Nat) → Event
  | childErrored : List Nat → Event
  | signalReceived : List Nat → Event

/-- Externally visible operations a handler performs.  The two
`flushLogThen…` effects capture that the exit action runs in the callback
of `logStream.end` (or immediately when logging is disabled). -/
inductive Effect where
  | writeChildStdin : List Nat → Effect
  | writeStdout : List Nat → Effect
  | writeStderr : List Nat → Effect
  | logWrite : Direction → LogMsg → Effect
  | endChildStdin : Effect
  | killChild : Option (List Nat) → Effect
  | flushLogThenExit : Int → Effect
  | flushLogThenRaise : List Nat → Effect
  | exitNow : Int → Effect
  deriving DecidableEq

/-- Routing of client→server parser outputs: `forward` writes to the
child's stdin. -/
def clientOut : Output → Effect
  | .forward b => .writeChildStdin b
  | .toServer b => .writeChildStdin b
  | .logEntry d m => .logWrite d m

/-- Routing of server→client parser outputs: `forward` writes to the
proxy's stdout, `sendToServer` to the child's stdin. -/
def serverOut : Output → Effect
  | .forward b => .writeStdout b
  | .toServer b => .writeChildStdin b
  | .logEntry d m => .logWrite d m

def SIGTERM : List Nat := asciiOf "SIGTERM"

def SIGINT : List Nat := asciiOf "SIGINT"

/-- Single-threaded event dispatch of the csharp proxy: each registered
handler, as a function from the pending-buffer state and the event to the
new state and the effects performed, in source order. -/
def handleEvent (st : ProxyState) : Event → ProxyState × List Effect
  | .stdinData c =>
    (fun r => ({ st with clientBuf := r.2 }, r.1.map clientOut))
      (drain csharpClientCfg .clientToServer (st.clientBuf ++ c))
  | .childStdoutData c =>
    (fun r => ({ st with serverBuf := r.2 }, r.1.map serverOut))
      (drain csharpServerCfg .serverToClient (st.serverBuf ++ c))
  | .stdinEnd => (st, [.endChildStdin])
  | .stdinError => (st, [.killChild none])
  | .stdoutError => (st, [.killChild none])
  | .childExited code sig =>
    (st, [match sig with
          | some s => .flushLogThenRaise s
          | none => .flushLogThenExit (code.getD 1)])
  | .childErrored m =>
    (st, [.writeStderr (asciiOf "lsp-proxy: failed to start child: " ++ m ++ [10]),
          .exitNow 1])
  | .signalReceived s =>
    (st, if s = SIGTERM ∨ s = SIGINT then [.killChild (some s)] else [])

/-- Effects that end the proxy process. -/
def isTermination : Effect → Bool
  | .flushLogThenExit _ => true
  | .flushLogThenRaise _ => true
  | .exitNow _ => true
  | _ => false

/-- C2: feeding any chunking of a byte sequence yields exactly the
sequence of outputs (hence of decoded messages) of feeding it whole, and
every chunk is fully drained: the leftover buffer never contains a
complete frame. -/
theorem claim2_chunking_invariant (cfg : Cfg) (dir : Direction) (chunks : List (List Nat)) :
    feedAll cfg dir [] chunks = drain cfg dir chunks.flatten ∧
    drain cfg dir (feedAll cfg dir [] chunks).2 = ([], (feedAll cfg dir [] chunks).2) := by
  have h1 : feedAll cfg dir [] chunks = drain cfg dir chunks.flatten := by
    have := feedAll_join cfg dir chunks [] rfl
    simpa using this
  refine ⟨h1, ?_⟩
  rw [h1]
  exact drain_stuck cfg dir chunks.flatten

/-- Step 1 of `normalizeFileUri` as the source implements it: strip
`file://` plus at most one additional slash. -/
def specStripScheme (uri : List Nat) : List Nat :=
  if (uri.drop 7).take 1 = [47] then uri.drop 8 else uri.drop 7

/-- Steps 2 and 3 as the spec words them: every backslash becomes a
forward slash, then a trailing slash run is stripped exactly when the
remaining path has length greater than one. -/
def specPathSteps (path : List Nat) : List Nat :=
  if 1 < (backslashToSlash path).length then stripTrailingSlashes (backslashToSlash path)
  else backslashToSlash path

/-- C3: the three documented mappings of `normalizeFileUri`, plus the
general shape: for every `file://` input the result is `file:///`
followed by the path after backslash replacement and conditional
trailing-slash stripping. -/
theorem claim3_normalizeFileUri_cases :
    (normalizeFileUri (asciiOf "file://C:\\foo\\bar\\") = asciiOf "file:///C:/foo/bar" ∧
     normalizeFileUri (asciiOf "file:///") = asciiOf "file:///" ∧
     normalizeFileUri (asciiOf "file:///a/b") = asciiOf "file:///a/b") ∧
    (∀ uri : List Nat, uri.take 7 = fileSlashes →
      normalizeFileUri uri = fileProto ++ specPathSteps (specStripScheme uri)) := by
  constructor
  · exact ⟨by decide, by decide, by decide⟩
  · intro uri h
    rw [normalizeFileUri, if_pos h]
    rfl

theorem claim3_witness :
    (asciiOf "file:///tmp/x/").take 7 = fileSlashes ∧
    normalizeFileUri (asciiOf "file:///tmp/x/") =
      fileProto ++ specPathSteps (specStripScheme (asciiOf "file:///tmp/x/")) :=
  ⟨by decide, claim3_normalizeFileUri_cases.2 (asciiOf "file:///tmp/x/") (by decide)⟩

/-- Step 1 as claim C4 literally words it: strip `file://` plus one or
two additional slashes (greedily, as the regex it paraphrases would). -/
def claimStripScheme (uri : List Nat) : List Nat :=
  if (uri.drop 7).take 2 = [47, 47] then uri.drop 9
  else if (uri.drop 7).take 1 = [47] then uri.drop 8
  else uri.drop 7

/-- C4 counterexample: on `file:////x` the source regex `^file:\/{2,3}`
strips only one slash beyond `file://`, yielding `file:////x`, whereas
stripping `file://` plus two additional slashes would yield `file:///x`. -/
theorem claim4_counterexample :
    normalizeFileUri (asciiOf "file:////x") = asciiOf "file:////x" ∧
    fileProto ++ specPathSteps (claimStripScheme (asciiOf "file:////x")) = asciiOf "file:///x" ∧
    asciiOf "file:////x" ≠ asciiOf "file:///x" := by
  refine ⟨by decide, by decide, by decide⟩

/-- C4 amended: the first step strips a leading `file://` plus at most
one additional slash (accepting the `file://` and `file:///` forms), the
later steps run on that remainder, and the result is re-prefixed with
exactly `file:///`. -/
theorem claim4_amended_strip (uri : List Nat) (h : uri.take 7 = fileSlashes) :
    normalizeFileUri uri = fileProto ++ specPathSteps (specStripScheme uri) ∧
    (normalizeFileUri uri).take 8 = fileProto := by
  have heq : normalizeFileUri uri = fileProto ++ specPathSteps (specStripScheme uri) := by
    rw [normalizeFileUri, if_pos h]
    rfl
  refine ⟨heq, ?_⟩
  rw [heq]
  have : fileProto.length = 8 := by decide
  rw [← this]
  exact List.take_left fileProto _

theorem claim4_witness :
    (asciiOf "file://x/").take 7 = fileSlashes ∧
    normalizeFileUri (asciiOf "file://x/") =
      fileProto ++ specPathSteps (specStripScheme (asciiOf "file://x/")) ∧
    (normalizeFileUri (asciiOf "file://x/")).take 8 = fileProto :=
  ⟨by decide,
   (claim4_amended_strip (asciiOf "file://x/") (by decide)).1,
   (claim4_amended_strip (asciiOf "file://x/") (by decide)).2⟩

/-- C5: a complete frame whose body does not parse as JSON is forwarded
byte-for-byte (original header block with its original `Content-Length`,
plus original body), a raw-fallback log record is produced instead of a
structured one, and the stream continues on the remaining bytes. -/
theorem claim5_unparseable_body_forwarded_raw (cfg : Cfg) (dir : Direction)
    (buf : List Nat) (sep n : Nat)
    (hsep : findSep buf = some sep)
    (hcl : contentLength (buf.take sep) = some n)
    (hlen : sep + 4 + n ≤ buf.length)
    (hbad : jsonParse ((buf.drop (sep + 4)).take n) = none) :
    drain cfg dir buf =
      (Output.logEntry dir (.raw ((buf.drop (sep + 4)).take n)) ::
         Output.forward (buf.take (sep + 4 + n)) ::
         (drain cfg dir (buf.drop (sep + 4 + n))).1,
       (drain cfg dir (buf.drop (sep + 4 + n))).2) := by
  rw [drain_eq, hsep]
  simp only [hcl]
  rw [if_neg (by omega)]
  simp only [handleBody, hbad]
  rfl

theorem claim5_witness :
    findSep (mkFrame (asciiOf "xyz")) = some 17 ∧
    contentLength ((mkFrame (asciiOf "xyz")).take 17) = some 3 ∧
    jsonParse (((mkFrame (asciiOf "xyz")).drop 21).take 3) = none ∧
    drain tsServerCfg .serverToClient (mkFrame (asciiOf "xyz")) =
      (Output.logEntry .serverToClient (.raw (((mkFrame (asciiOf "xyz")).drop 21).take 3)) ::
         Output.forward ((mkFrame (asciiOf "xyz")).take 24) ::
         (drain tsServerCfg .serverToClient ((mkFrame (asciiOf "xyz")).drop 24)).1,
       (drain tsServerCfg .serverToClient ((mkFrame (asciiOf "xyz")).drop 24)).2) :=
  ⟨by decide, by decide, by decide,
   claim5_unparseable_body_forwarded_raw tsServerCfg .serverToClient
     (mkFrame (asciiOf "xyz")) 17 3 (by decide) (by decide) (by decide) (by decide)⟩

/-- C6: a buffered segment ending in `\r\n\r\n` whose header block has no
`Content-Length` is forwarded verbatim up to and including the separator,
the buffer advances past it, and draining continues on the rest. -/
theorem claim6_missing_content_length_forwarded (cfg : Cfg) (dir : Direction)
    (buf : List Nat) (sep : Nat)
    (hsep : findSep buf = some sep)
    (hcl : contentLength (buf.take sep) = none) :
    drain cfg dir buf =
      (Output.forward (buf.take (sep + 4)) :: (drain cfg dir (buf.drop (sep + 4))).1,
       (drain cfg dir (buf.drop (sep + 4))).2) := by
  rw [drain_eq, hsep]
  simp only [hcl]

theorem claim6_witness :
    findSep (asciiOf "X: 1" ++ (crlf2 ++ mkFrame [123, 125])) = some 4 ∧
    contentLength ((asciiOf "X: 1" ++ (crlf2 ++ mkFrame [123, 125])).take 4) = none ∧
    drain tsServerCfg .serverToClient (asciiOf "X: 1" ++ (crlf2 ++ mkFrame [123, 125])) =
      (Output.forward ((asciiOf "X: 1" ++ (crlf2 ++ mkFrame [123, 125])).take 8) ::
         (drain tsServerCfg .serverToClient
           ((asciiOf "X: 1" ++ (crlf2 ++ mkFrame [123, 125])).drop 8)).1,
       (drain tsServerCfg .serverToClient
         ((asciiOf "X: 1" ++ (crlf2 ++ mkFrame [123, 125])).drop 8)).2) ∧
    drain tsServerCfg .serverToClient ((asciiOf "X: 1" ++ (crlf2 ++ mkFrame [123, 125])).drop 8) =
      ([Output.logEntry .serverToClient (.msg (.obj .nil)),
        Output.forward (encode (.obj .nil))], []) :=
  ⟨by decide, by decide,
   claim6_missing_content_length_forwarded tsServerCfg .serverToClient
     (asciiOf "X: 1" ++ (crlf2 ++ mkFrame [123, 125])) 4 (by decide) (by decide),
   by decide⟩

/-- C8: spawn failure exits with status 1; a signal-free child exit makes
the proxy exit, after the log flush, with the child's code or with 1 when
the code is absent; a signal-terminated child makes the proxy re-raise
that same signal on itself after the log flush instead of calling
`exit`. -/
theorem claim8_exit_codes :
    (∀ (st : ProxyState) (m : List Nat),
      handleEvent st (.childErrored m) =
        (st, [.writeStderr (asciiOf "lsp-proxy: failed to start child: " ++ m ++ [10]),
              .exitNow 1])) ∧
    (∀ (st : ProxyState) (c : Int),
      handleEvent st (.childExited (some c) none) = (st, [.flushLogThenExit c])) ∧
    (∀ st : ProxyState,
      handleEvent st (.childExited none none) = (st, [.flushLogThenExit 1])) ∧
    (∀ (st : ProxyState) (c : Option Int) (s : List Nat),
      handleEvent st (.childExited c (some s)) = (st, [.flushLogThenRaise s])) :=
  ⟨fun _ _ => rfl, fun _ _ => rfl, fun _ => rfl, fun _ _ _ => rfl⟩

/-- C9 counterexample: the spawn-error handler terminates the proxy
(`exit(1)`) even though it is not the child's exit handler, so proxy
termination does not happen only from the child's exit handler. -/
theorem claim9_counterexample :
    ¬ (∀ (st : ProxyState) (e : Event) (eff : Effect),
        eff ∈ (handleEvent st e).2 → isTermination eff = true →
          ∃ (c : Option Int) (s : Option (List Nat)), e = Event.childExited c s) := by
  intro h
  obtain ⟨c, s, hcs⟩ :=
    h ⟨[], []⟩ (.childErrored []) (.exitNow 1) (by simp [handleEvent]) rfl
  exact Event.noConfusion hcs

theorem clientOut_not_termination (o : Output) : isTermination (clientOut o) = false := by
  cases o <;> rfl

theorem serverOut_not_termination (o : Output) : isTermination (serverOut o) = false := by
  cases o <;> rfl

/-- C9 amended: SIGTERM and SIGINT are forwarded verbatim to the child and
handled in no other way, and the only handlers that terminate the proxy
are the child's exit handler and the child's spawn-error handler. -/
theorem claim9_amended_termination :
    (∀ st : ProxyState,
      handleEvent st (.signalReceived SIGTERM) = (st, [.killChild (some SIGTERM)]) ∧
      handleEvent st (.signalReceived SIGINT) = (st, [.killChild (some SIGINT)])) ∧
    (∀ (st : ProxyState) (e : Event) (eff : Effect),
      eff ∈ (handleEvent st e).2 → isTermination eff = true →
        (∃ (c : Option Int) (s : Option (List Nat)), e = Event.childExited c s) ∨
        (∃ m : List Nat, e = Event.childErrored m)) := by
  constructor
  · intro st
    constructor
    · rfl
    · rfl
  · intro st e eff hmem hterm
    cases e with
    | stdinData c =>
      exfalso
      simp only [handleEvent, List.mem_map] at hmem
      obtain ⟨o, _, ho⟩ := hmem
      rw [← ho, clientOut_not_termination] at hterm
      exact Bool.false_ne_true hterm
    | childStdoutData c =>
      exfalso
      simp only [handleEvent, List.mem_map] at hmem
      obtain ⟨o, _, ho⟩ := hmem
      rw [← ho, serverOut_not_termination] at hterm
      exact Bool.false_ne_true hterm
    | stdinEnd =>
      exfalso
      simp only [handleEvent, List.mem_singleton] at hmem
      rw [hmem] at hterm
      exact Bool.false_ne_true hterm
    | stdinError =>
      exfalso
      simp only [handleEvent, List.mem_singleton] at hmem
      rw [hmem] at hterm
      exact Bool.false_ne_true hterm
    | stdoutError =>
      exfalso
      simp only [handleEvent, List.mem_singleton] at hmem
      rw [hmem] at hterm
      exact Bool.false_ne_true hterm
    | childExited c s => exact Or.inl ⟨c, s, rfl⟩
    | childErrored m => exact Or.inr ⟨m, rfl⟩
    | signalReceived s =>
      exfalso
      simp only [handleEvent] at hmem
      by_cases hs : s = SIGTERM ∨ s = SIGINT
      · rw [if_pos hs] at hmem
        simp only [List.mem_singleton] at hmem
        rw [hmem] at hterm
        exact Bool.false_ne_true hterm
      · rw [if_neg hs] at hmem
        exact (List.not_mem_nil eff) hmem

theorem claim9_witness :
    handleEvent ⟨[], []⟩ (.signalReceived SIGTERM) =
      (⟨[], []⟩, [.killChild (some SIGTERM)]) ∧
    ((∃ (c : Option Int) (s : Option (List Nat)),
        Event.childExited (some 0) none = Event.childExited c s) ∨
     (∃ m : List Nat, Event.childExited (some 0) none = Event.childErrored m)) :=
  ⟨(claim9_amended_termination.1 ⟨[], []⟩).1,
   claim9_amended_termination.2 ⟨[], []⟩ (.childExited (some 0) none)
     (.flushLogThenExit 0) (by decide) rfl⟩

/-- The value actually forwarded: the parsed value after the optional
transform. -/
def applyTransform (cfg : Cfg) (v : Json) : Json :=
  match cfg.transform with
  | some t => t v
  | none => v

/-- The configured intercept callback (if any) declines the message
without throwing. -/
def NoInterceptOn (cfg : Cfg) (v : Json) : Prop :=
  ∀ ic, cfg.intercept = some ic → ic v = ICResult.noIntercept

theorem handleBody_parsed (cfg : Cfg) (dir : Direction) (raw body : List Nat) (v : Json)
    (h : jsonParse body = some v) :
    handleBody cfg dir raw body = handleParsed cfg dir raw body (applyTransform cfg v) := by
  rw [handleBody, h]
  cases ht : cfg.transform with
  | none => simp only [applyTransform, ht]
  | some t => simp only [applyTransform, ht]

/-- C10 counterexample: on the csharp server→client path a frame whose
body is ` null` (leading space) parses successfully and is not
intercepted, yet the callback's property access on `null` throws, so the
original frame bytes are forwarded instead of a freshly encoded frame:
the forwarded bytes keep the insignificant whitespace and the original
`Content-Length: 5`, unlike the compact re-serialization. -/
theorem claim10_counterexample :
    jsonParse (32 :: asciiOf "null") = some Json.null ∧
    csharpIntercept Json.null = ICResult.threw ∧
    handleEvent ⟨[], []⟩ (.childStdoutData (mkFrame (32 :: asciiOf "null"))) =
      (⟨[], []⟩,
       [.logWrite .serverToClient (.msg .null),
        .logWrite .serverToClient (.raw (32 :: asciiOf "null")),
        .writeStdout (mkFrame (32 :: asciiOf "null"))]) ∧
    mkFrame (32 :: asciiOf "null") ≠ encode Json.null := by
  refine ⟨by decide, rfl, by decide, by decide⟩

/-- C10 amended: on either direction and in both variants, every complete
frame whose body parses as JSON and on which the intercept callback (when
present) declines without throwing is forwarded as a freshly encoded
frame — a newly computed `Content-Length` header followed by the compact
re-serialization of the (possibly transformed) value — and the forwarded
bytes can differ from the received bytes while the decoded value is
preserved. -/
theorem claim10_amended_fresh_encoding :
    (∀ (cfg : Cfg) (dir : Direction) (buf : List Nat) (sep n : Nat) (v : Json),
      findSep buf = some sep →
      contentLength (buf.take sep) = some n →
      sep + 4 + n ≤ buf.length →
      jsonParse ((buf.drop (sep + 4)).take n) = some v →
      NoInterceptOn cfg (applyTransform cfg v) →
      drain cfg dir buf =
        (Output.logEntry dir (.msg (applyTransform cfg v)) ::
           Output.forward (encode (applyTransform cfg v)) ::
           (drain cfg dir (buf.drop (sep + 4 + n))).1,
         (drain cfg dir (buf.drop (sep + 4 + n))).2)) ∧
    (drain tsServerCfg .serverToClient (mkFrame [123, 32, 125]) =
       ([Output.logEntry .serverToClient (.msg (.obj .nil)),
         Output.forward (encode (.obj .nil))], []) ∧
     encode (.obj .nil) ≠ mkFrame [123, 32, 125]) := by
  constructor
  · intro cfg dir buf sep n v hsep hcl hlen hv hni
    rw [drain_eq, hsep]
    simp only [hcl]
    rw [if_neg (by omega)]
    rw [handleBody_parsed cfg dir _ _ v hv]
    cases hic : cfg.intercept with
    | none =>
      simp only [handleParsed, hic]
      rfl
    | some ic =>
      have hdecline := hni ic hic
      simp only [handleParsed, hic, hdecline]
      rfl
  · exact ⟨by decide, by decide⟩

theorem claim10_witness :
    findSep (mkFrame [123, 32, 125]) = some 17 ∧
    jsonParse (((mkFrame [123, 32, 125]).drop 21).take 3) = some (.obj .nil) ∧
    drain tsServerCfg .serverToClient (mkFrame [123, 32, 125]) =
      (Output.logEntry .serverToClient (.msg (applyTransform tsServerCfg (.obj .nil))) ::
         Output.forward (encode (applyTransform tsServerCfg (.obj .nil))) ::
         (drain tsServerCfg .serverToClient ((mkFrame [123, 32, 125]).drop 24)).1,
       (drain tsServerCfg .serverToClient ((mkFrame [123, 32, 125]).drop 24)).2) :=
  ⟨by decide, by decide,
   claim10_amended_fresh_encoding.1 tsServerCfg .serverToClient
     (mkFrame [123, 32, 125]) 17 3 (.obj .nil) (by decide) (by decide) (by decide)
     (by decide) (fun ic hic => Option.noConfusion hic)⟩

theorem frameHeader_no_cr (n : Nat) :
    ∀ x ∈ clPrefixBytes ++ natDigits n, x ≠ 13 := by
  intro x hx
  rcases List.mem_append.mp hx with h1 | h2
  · fin_cases h1 <;> omega
  · have := natDigits_mem n x h2; omega

/-- Draining exactly one canonically framed body resolves that frame and
leaves an empty buffer. -/
theorem drain_mkFrame (cfg : Cfg) (dir : Direction) (body : List Nat) :
    drain cfg dir (mkFrame body) = (handleBody cfg dir (mkFrame body) body, []) := by
  have hshape : mkFrame body =
      (clPrefixBytes ++ natDigits body.length) ++ (crlf2 ++ body) := by
    simp [mkFrame, frameHeader, List.append_assoc]
  have hsep : findSep (mkFrame body) =
      some (clPrefixBytes ++ natDigits body.length).length := by
    rw [hshape]
    exact findSep_header body _ (frameHeader_no_cr body.length)
  have htake : (mkFrame body).take (clPrefixBytes ++ natDigits body.length).length =
      clPrefixBytes ++ natDigits body.length := by
    rw [hshape]
    exact List.take_left _ _
  have hcl : contentLength ((mkFrame body).take
      (clPrefixBytes ++ natDigits body.length).length) = some body.length := by
    rw [htake]
    exact contentLength_canonical body.length
  have hlen : (mkFrame body).length =
      (clPrefixBytes ++ natDigits body.length).length + 4 + body.length := by
    rw [hshape]
    simp [crlf2]
    omega
  rw [drain_eq, hsep]
  simp only [hcl]
  rw [if_neg (by omega)]
  have hdrop4 : (mkFrame body).drop ((clPrefixBytes ++ natDigits body.length).length + 4) =
      body := by
    rw [hshape]
    rw [List.drop_append_eq_append_drop]
    rw [List.drop_of_length_le (by omega)]
    rw [List.nil_append]
    have h4 : (clPrefixBytes ++ natDigits body.length).length + 4 -
        (clPrefixBytes ++ natDigits body.length).length = 4 := by omega
    rw [h4]
    rw [show (4 : Nat) = crlf2.length from rfl]
    exact List.drop_left crlf2 body
  have hdropall : (mkFrame body).drop
      ((clPrefixBytes ++ natDigits body.length).length + 4 + body.length) = [] := by
    apply List.drop_of_length_le
    omega
  have htakeall : (mkFrame body).take
      ((clPrefixBytes ++ natDigits body.length).length + 4 + body.length) = mkFrame body := by
    apply List.take_of_length_le
    omega
  rw [hdrop4, hdropall, htakeall]
  simp only [List.take_length]
  have hnil : drain cfg dir [] = ([], []) := rfl
  rw [hnil]
  simp

theorem handleParsed_csharp (raw body : List Nat) (v : Json) :
    handleParsed csharpServerCfg .serverToClient raw body v =
      match csharpIntercept v with
      | .noIntercept => [.logEntry .serverToClient (.msg v), .forward (encode v)]
      | .intercepted outs => .logEntry .serverToClient (.msg v) :: outs
      | .threw =>
        [.logEntry .serverToClient (.msg v), .logEntry .serverToClient (.raw body),
         .forward raw] := rfl

/-- C1: on the csharp server→client path, a decoded message with a
defined `id` and an intercepted method produces exactly one synthesized
`{jsonrpc:"2.0", id, result:null}` frame written to the child's stdin,
one interception log record, and no frame to the client; a decoded
message the callback declines is forwarded (freshly encoded) to the
client; a decoded `null` body (whose property access throws) is forwarded
to the client as the raw frame. -/
theorem claim1_intercept_synthesizes_reply :
    (∀ (bc body : List Nat) (kvs : JsonKVs) (idv : Json) (m : List Nat),
      jsonParse body = some (.obj kvs) →
      jsGet kvs (asciiOf "id") = some idv →
      jsGet kvs (asciiOf "method") = some (.str m) →
      m ∈ interceptedMethods →
      handleEvent ⟨bc, []⟩ (.childStdoutData (mkFrame body)) =
        (⟨bc, []⟩,
         [.logWrite .serverToClient (.msg (.obj kvs)),
          .logWrite .proxyToServer (.msg (interceptLogObj idv m)),
          .writeChildStdin (encode (synthReply idv))])) ∧
    (∀ (bc body : List Nat) (v : Json),
      jsonParse body = some v →
      csharpIntercept v = ICResult.noIntercept →
      handleEvent ⟨bc, []⟩ (.childStdoutData (mkFrame body)) =
        (⟨bc, []⟩,
         [.logWrite .serverToClient (.msg v),
          .writeStdout (encode v)])) ∧
    (∀ (bc body : List Nat),
      jsonParse body = some .null →
      handleEvent ⟨bc, []⟩ (.childStdoutData (mkFrame body)) =
        (⟨bc, []⟩,
         [.logWrite .serverToClient (.msg .null),
          .logWrite .serverToClient (.raw body),
          .writeStdout (mkFrame body)])) := by
  have hdrain : ∀ (bc body : List Nat),
      handleEvent ⟨bc, []⟩ (.childStdoutData (mkFrame body)) =
        (⟨bc, []⟩,
         (handleBody csharpServerCfg .serverToClient (mkFrame body) body).map serverOut) := by
    intro bc body
    show (fun r => (_, r.1.map serverOut))
        (drain csharpServerCfg .serverToClient (([] : List Nat) ++ mkFrame body)) = _
    rw [List.nil_append, drain_mkFrame]
  refine ⟨?_, ?_, ?_⟩
  · intro bc body kvs idv m hparse hid hmethod hmem
    rw [hdrain bc body]
    rw [handleBody_parsed _ _ _ _ _ hparse]
    have hat : applyTransform csharpServerCfg (Json.obj kvs) = Json.obj kvs := rfl
    have hunfold : csharpIntercept (Json.obj kvs) =
        (match jsGet kvs (asciiOf "id") with
         | none => ICResult.noIntercept
         | some idv =>
           match jsGet kvs (asciiOf "method") with
           | some (Json.str m) =>
             if m ∈ interceptedMethods then
               ICResult.intercepted
                 [Output.logEntry Direction.proxyToServer (LogMsg.msg (interceptLogObj idv m)),
                  Output.toServer (encode (synthReply idv))]
             else ICResult.noIntercept
           | _ => ICResult.noIntercept) := rfl
    have hic : csharpIntercept (Json.obj kvs) =
        ICResult.intercepted
          [Output.logEntry Direction.proxyToServer (LogMsg.msg (interceptLogObj idv m)),
           Output.toServer (encode (synthReply idv))] := by
      rw [hunfold, hid]
      simp only
      rw [hmethod]
      simp only
      rw [if_pos hmem]
    rw [hat, handleParsed_csharp, hic]
    rfl
  · intro bc body v hparse hni
    rw [hdrain bc body]
    rw [handleBody_parsed _ _ _ _ _ hparse]
    have hat : applyTransform csharpServerCfg v = v := rfl
    rw [hat, handleParsed_csharp, hni]
    rfl
  · intro bc body hparse
    rw [hdrain bc body]
    rw [handleBody_parsed _ _ _ _ _ hparse]
    have hat : applyTransform csharpServerCfg Json.null = Json.null := rfl
    have hth : csharpIntercept Json.null = ICResult.threw := rfl
    rw [hat, handleParsed_csharp, hth]
    rfl

/-- A concrete intercepted request used by the C1 witness. -/
def wInterceptKVs : JsonKVs :=
  .cons (asciiOf "id") (.num 1)
    (.cons (asciiOf "method") (.str (asciiOf "client/registerCapability")) .nil)

theorem claim1_witness :
    jsonParse (stringify (Json.obj wInterceptKVs)) = some (.obj wInterceptKVs) ∧
    handleEvent ⟨[], []⟩ (.childStdoutData (mkFrame (stringify (Json.obj wInterceptKVs)))) =
      (⟨[], []⟩,
       [.logWrite .serverToClient (.msg (.obj wInterceptKVs)),
        .logWrite .proxyToServer (.msg (interceptLogObj (.num 1) (asciiOf "client/registerCapability"))),
        .writeChildStdin (encode (synthReply (.num 1)))]) :=
  ⟨by decide,
   claim1_intercept_synthesizes_reply.1 [] (stringify (Json.obj wInterceptKVs))
     wInterceptKVs (.num 1) (asciiOf "client/registerCapability")
     (by decide) (by decide) (by decide) (by decide)⟩

/- Fuel (recursion depth) needed by `parseValue` to parse a serialized
value; used to show the length-based fuel of `jsonParse` suffices. -/
mutual
def pdepth : Json → Nat
  | .arr xs => 1 + pdepthElems xs
  | .obj kvs => 1 + pdepthKVs kvs
  | _ => 1
def pdepthElems : JsonList → Nat
  | .nil => 1
  | .cons v t => 1 + max (pdepth v) (pdepthElems t)
def pdepthKVs : JsonKVs → Nat
  | .nil => 1
  | .cons _ v t => 1 + max (pdepth v) (pdepthKVs t)
end

theorem pdepth_pos (v : Json) : 1 ≤ pdepth v := by
  cases v <;> simp [pdepth]

theorem skipWs_cons (c : Nat) (l : List Nat) (h : jsonWS c = false) :
    skipWs (c :: l) = c :: l := by
  rw [skipWs, List.dropWhile_cons, h]
  simp

/-- The head symbol of a serialized value is never whitespace and never a
closing delimiter or comma. -/
theorem stringify_head_spec (v : Json) :
    ∃ c t, stringify v = c :: t ∧ jsonWS c = false ∧ c ≠ 93 ∧ c ≠ 125 ∧ c ≠ 44 := by
  cases v with
  | null => exact ⟨110, _, rfl, rfl, by omega, by omega, by omega⟩
  | bool b => cases b with
    | true => exact ⟨116, _, rfl, rfl, by omega, by omega, by omega⟩
    | false => exact ⟨102, _, rfl, rfl, by omega, by omega, by omega⟩
  | str s => exact ⟨34, _, rfl, rfl, by omega, by omega, by omega⟩
  | arr xs => exact ⟨91, _, rfl, rfl, by omega, by omega, by omega⟩
  | obj kvs => exact ⟨123, _, rfl, rfl, by omega, by omega, by omega⟩
  | num n =>
    show ∃ c t, intDigits n = c :: t ∧ _
    rw [intDigits]
    by_cases hn : n < 0
    · rw [if_pos hn]
      exact ⟨45, _, rfl, rfl, by omega, by omega, by omega⟩
    · rw [if_neg hn]
      cases hd : natDigits n.toNat with
      | nil => exact absurd hd (natDigits_ne_nil _)
      | cons c t =>
        have hc : c ∈ natDigits n.toNat := by rw [hd]; simp
        have hb := natDigits_mem _ c hc
        refine ⟨c, t, rfl, ?_, by omega, by omega, by omega⟩
        simp only [jsonWS, Bool.or_eq_false_iff, decide_eq_false_iff_not]
        omega

theorem stringify_ne_nil (v : Json) : stringify v ≠ [] := by
  obtain ⟨c, t, h, -⟩ := stringify_head_spec v
  rw [h]
  simp

theorem hexVal_hexDigitChar (d : Nat) (h : d < 16) : hexVal (hexDigitChar d) = some d := by
  rw [hexDigitChar, hexVal]
  by_cases hd : d < 10
  · rw [if_pos hd, if_pos (by omega)]
    simp
  · rw [if_neg hd]
    rw [if_neg (by omega), if_pos (by omega)]
    simp


theorem parseStr_cons_plain (c : Nat) (l : List Nat)
    (h34 : ¬ c = 34) (h92 : ¬ c = 92) (hlo : ¬ c < 32) :
    parseStr (c :: l) =
      match parseStr l with
      | some (s, r3) => some (c :: s, r3)
      | none => none := by
  rw [parseStr, if_neg h34, if_neg h92, if_neg hlo]

theorem parseStr_cons_esc (l : List Nat) : parseStr (92 :: l) = parseEsc l := by
  rw [parseStr, if_neg (by omega), if_pos rfl]

theorem parseEsc_short (e u : Nat) (l : List Nat) (h117 : ¬ e = 117) (hu : escChar e = some u) :
    parseEsc (e :: l) =
      match parseStr l with
      | some (s, r3) => some (u :: s, r3)
      | none => none := by
  rw [parseEsc, if_neg h117, hu]

theorem parseStr_escaped (e u : Nat) (l : List Nat) (h117 : ¬ e = 117) (hu : escChar e = some u) :
    parseStr (92 :: e :: l) =
      match parseStr l with
      | some (s, r3) => some (u :: s, r3)
      | none => none := by
  rw [parseStr_cons_esc, parseEsc_short e u l h117 hu]

theorem parseEsc_u (d1 d2 d3 d4 : Nat) (l : List Nat) :
    parseEsc (117 :: d1 :: d2 :: d3 :: d4 :: l) =
      match hexVal d1, hexVal d2, hexVal d3, hexVal d4 with
      | some a, some b, some x, some d =>
        (match parseStr l with
         | some (s, r3) => some ((((a * 16 + b) * 16 + x) * 16 + d) :: s, r3)
         | none => none)
      | _, _, _, _ => none := rfl

/-- Unescaping inverts `JSON.stringify` escaping, one string at a time. -/
theorem parseStr_escString (s : List Nat) :
    ∀ rest : List Nat, parseStr (escString s ++ (34 :: rest)) = some (s, rest) := by
  induction s with
  | nil =>
    intro rest
    rw [escString, List.nil_append, parseStr]
    simp
  | cons c s ih =>
    intro rest
    rw [escString, List.append_assoc]
    by_cases h34 : c = 34
    · subst h34
      rw [show escapeByte 34 = [92, 34] from rfl]
      simp only [List.cons_append, List.nil_append]
      rw [parseStr_escaped 34 34 _ (by omega) rfl]
      simp only [ih rest]
    · by_cases h92 : c = 92
      · subst h92
        rw [show escapeByte 92 = [92, 92] from rfl]
        simp only [List.cons_append, List.nil_append]
        rw [parseStr_escaped 92 92 _ (by omega) rfl]
        simp only [ih rest]
      · by_cases hlo : c < 32
        · by_cases h8 : c = 8
          · subst h8
            rw [show escapeByte 8 = [92, 98] from rfl]
            simp only [List.cons_append, List.nil_append]
            rw [parseStr_escaped 98 8 _ (by omega) rfl]
            simp only [ih rest]
          · by_cases h9 : c = 9
            · subst h9
              rw [show escapeByte 9 = [92, 116] from rfl]
              simp only [List.cons_append, List.nil_append]
              rw [parseStr_escaped 116 9 _ (by omega) rfl]
              simp only [ih rest]
            · by_cases h10 : c = 10
              · subst h10
                rw [show escapeByte 10 = [92, 110] from rfl]
                simp only [List.cons_append, List.nil_append]
                rw [parseStr_escaped 110 10 _ (by omega) rfl]
                simp only [ih rest]
              · by_cases h12 : c = 12
                · subst h12
                  rw [show escapeByte 12 = [92, 102] from rfl]
                  simp only [List.cons_append, List.nil_append]
                  rw [parseStr_escaped 102 12 _ (by omega) rfl]
                  simp only [ih rest]
                · by_cases h13 : c = 13
                  · subst h13
                    rw [show escapeByte 13 = [92, 114] from rfl]
                    simp only [List.cons_append, List.nil_append]
                    rw [parseStr_escaped 114 13 _ (by omega) rfl]
                    simp only [ih rest]
                  · have hesc : escapeByte c =
                        [92, 117, 48, 48, hexDigitChar (c / 16), hexDigitChar (c % 16)] := by
                      rw [escapeByte, if_neg h34, if_neg h92, if_neg h8, if_neg h9,
                          if_neg h10, if_neg h12, if_neg h13, if_pos hlo]
                    rw [hesc]
                    simp only [List.cons_append, List.nil_append]
                    rw [parseStr_cons_esc, parseEsc_u]
                    have e1 : hexVal (hexDigitChar (c / 16)) = some (c / 16) :=
                      hexVal_hexDigitChar _ (by omega)
                    have e2 : hexVal (hexDigitChar (c % 16)) = some (c % 16) :=
                      hexVal_hexDigitChar _ (by omega)
                    simp only [show hexVal 48 = some 0 from rfl, e1, e2]
                    simp only [ih rest]
                    have hval : ((0 * 16 + 0) * 16 + c / 16) * 16 + c % 16 = c := by omega
                    rw [hval]
        · have hesc : escapeByte c = [c] := by
            rw [escapeByte, if_neg h34, if_neg h92]
            have h8 : ¬ c = 8 := by omega
            have h9 : ¬ c = 9 := by omega
            have h10 : ¬ c = 10 := by omega
            have h12 : ¬ c = 12 := by omega
            have h13 : ¬ c = 13 := by omega
            rw [if_neg h8, if_neg h9, if_neg h10, if_neg h12, if_neg h13, if_neg hlo]
          rw [hesc]
          simp only [List.cons_append, List.nil_append]
          rw [parseStr_cons_plain c _ h34 h92 hlo]
          simp only [ih rest]

theorem takeWhile_append_all (p : Nat → Bool) (a : List Nat)
    (ha : ∀ x ∈ a, p x = true) :
    ∀ b : List Nat, (∀ c t, b = c :: t → p c = false) →
      (a ++ b).takeWhile p = a ∧ (a ++ b).dropWhile p = b := by
  induction a with
  | nil =>
    intro b hb
    cases b with
    | nil => simp
    | cons c t =>
      rw [List.nil_append, List.takeWhile_cons, List.dropWhile_cons, hb c t rfl]
      simp
  | cons x xs ih =>
    intro b hb
    have hx : p x = true := ha x (by simp)
    have ihx := ih (fun y hy => ha y (by simp [hy])) b hb
    rw [List.cons_append, List.takeWhile_cons, List.dropWhile_cons, hx]
    simp only [if_true]
    exact ⟨by rw [ihx.1], by rw [ihx.2]⟩

/-- Tokens that may legally follow a serialized value in our round-trip
statements: end of input, or a comma / closing bracket / closing brace. -/
def DelimHead (rest : List Nat) : Prop :=
  rest = [] ∨ ∃ r', rest = 44 :: r' ∨ rest = 93 :: r' ∨ rest = 125 :: r'

theorem delimHead_not_digit (rest : List Nat) (h : DelimHead rest) :
    ∀ c t, rest = c :: t → isDigitB c = false := by
  intro c t hct
  rcases h with h0 | ⟨r', h1 | h1 | h1⟩
  · rw [h0] at hct; exact absurd hct (by simp)
  all_goals
    rw [h1] at hct
    have := (List.cons.injEq _ _ _ _).mp hct
    rw [← this.1]
    rfl

theorem parseNat_natDigits (n : Nat) (rest : List Nat)
    (hrest : ∀ c t, rest = c :: t → isDigitB c = false) :
    parseNat (natDigits n ++ rest) = some (n, rest) := by
  have hall : ∀ x ∈ natDigits n, isDigitB x = true := by
    intro x hx
    have := natDigits_mem n x hx
    simp only [isDigitB, Bool.and_eq_true, decide_eq_true_eq]
    omega
  have h := takeWhile_append_all isDigitB (natDigits n) hall rest hrest
  rw [parseNat, h.1, h.2]
  cases hd : natDigits n with
  | nil => exact absurd hd (natDigits_ne_nil n)
  | cons d ds =>
    have hval : digitsToNat (d :: ds) 0 = n := by
      rw [← hd]; exact digitsToNat_natDigits n
    simp [hval]

theorem parseValue_strB (g : Nat) (tail : List Nat) :
    parseValue (g + 1) (34 :: tail) =
      match parseStr tail with
      | some (s, r) => some (.str s, r)
      | none => none := rfl

theorem parseValue_arrB (g : Nat) (tail : List Nat) :
    parseValue (g + 1) (91 :: tail) =
      match skipWs tail with
      | [] => none
      | d :: r2 =>
        if d = 93 then some (.arr .nil, r2)
        else
          match parseElems g (d :: r2) with
          | some (xs, r3) => some (.arr xs, r3)
          | none => none := rfl

theorem parseValue_objB (g : Nat) (tail : List Nat) :
    parseValue (g + 1) (123 :: tail) =
      match skipWs tail with
      | [] => none
      | d :: r2 =>
        if d = 125 then some (.obj .nil, r2)
        else
          match parseMembers g (d :: r2) with
          | some (kvs, r3) => some (.obj kvs, r3)
          | none => none := rfl

theorem parseValue_negB (g : Nat) (tail : List Nat) :
    parseValue (g + 1) (45 :: tail) =
      match parseNat tail with
      | some (n, r) => some (.num (-(n : Int)), r)
      | none => none := rfl

theorem parseValue_digit (g c : Nat) (tail : List Nat) (hc : isDigitB c = true) :
    parseValue (g + 1) (c :: tail) =
      match parseNat (c :: tail) with
      | some (n, r) => some (.num (n : Int), r)
      | none => none := by
  have hb : 48 ≤ c ∧ c ≤ 57 := by
    simp only [isDigitB, Bool.and_eq_true, decide_eq_true_eq] at hc
    omega
  have hws : jsonWS c = false := by
    simp only [jsonWS, Bool.or_eq_false_iff, decide_eq_false_iff_not]
    omega
  rw [parseValue, skipWs_cons c tail hws]
  simp only
  rw [if_neg (by omega : ¬ c = 110), if_neg (by omega : ¬ c = 116),
      if_neg (by omega : ¬ c = 102), if_neg (by omega : ¬ c = 34),
      if_neg (by omega : ¬ c = 91), if_neg (by omega : ¬ c = 123),
      if_neg (by omega : ¬ c = 45), if_pos hc]

theorem pdepthElems_pos (xs : JsonList) : 1 ≤ pdepthElems xs := by
  cases xs <;> simp [pdepthElems]

theorem pdepthKVs_pos (kvs : JsonKVs) : 1 ≤ pdepthKVs kvs := by
  cases kvs <;> simp [pdepthKVs]

theorem stringify_length_pos (v : Json) : 1 ≤ (stringify v).length := by
  obtain ⟨c, t, h, -⟩ := stringify_head_spec v
  rw [h]
  simp

mutual
theorem pdepth_le : ∀ v : Json, pdepth v ≤ (stringify v).length
  | .null => by simp [pdepth, stringify]
  | .bool b => by cases b <;> simp [pdepth, stringify]
  | .num n => by
    have := stringify_length_pos (.num n)
    simp only [pdepth]
    omega
  | .str s => by
    have := stringify_length_pos (.str s)
    simp only [pdepth]
    omega
  | .arr xs => by
    have h := pdepthElems_le xs
    have hs : (stringify (.arr xs)).length = (stringifyElems xs).length + 2 := by
      simp [stringify]
    have hp : pdepth (.arr xs) = 1 + pdepthElems xs := rfl
    omega
  | .obj kvs => by
    have h := pdepthKVs_le kvs
    have hs : (stringify (.obj kvs)).length = (stringifyKVs kvs).length + 2 := by
      simp [stringify]
    have hp : pdepth (.obj kvs) = 1 + pdepthKVs kvs := rfl
    omega
theorem pdepthElems_le : ∀ xs : JsonList, pdepthElems xs ≤ (stringifyElems xs).length + 1
  | .nil => by simp [pdepthElems, stringifyElems]
  | .cons v .nil => by
    have hv := pdepth_le v
    have hvp := stringify_length_pos v
    have hs : (stringifyElems (.cons v .nil)).length = (stringify v).length := by
      simp [stringifyElems]
    have hp : pdepthElems (.cons v .nil) = 1 + max (pdepth v) (pdepthElems .nil) := rfl
    have hnil : pdepthElems .nil = 1 := rfl
    omega
  | .cons v (.cons w t) => by
    have hv := pdepth_le v
    have ht := pdepthElems_le (.cons w t)
    have hs : (stringifyElems (.cons v (.cons w t))).length =
        (stringify v).length + 1 + (stringifyElems (.cons w t)).length := by
      simp [stringifyElems]
      omega
    have hp : pdepthElems (.cons v (.cons w t)) =
        1 + max (pdepth v) (pdepthElems (.cons w t)) := rfl
    omega
theorem pdepthKVs_le : ∀ kvs : JsonKVs, pdepthKVs kvs ≤ (stringifyKVs kvs).length + 1
  | .nil => by simp [pdepthKVs, stringifyKVs]
  | .cons k v .nil => by
    have hv := pdepth_le v
    have hs : (stringifyKVs (.cons k v .nil)).length =
        (escString k).length + (stringify v).length + 3 := by
      simp [stringifyKVs]
      omega
    have hp : pdepthKVs (.cons k v .nil) = 1 + max (pdepth v) (pdepthKVs .nil) := rfl
    have hnil : pdepthKVs .nil = 1 := rfl
    omega
  | .cons k v (.cons k2 v2 t) => by
    have hv := pdepth_le v
    have ht := pdepthKVs_le (.cons k2 v2 t)
    have hs : (stringifyKVs (.cons k v (.cons k2 v2 t))).length =
        (escString k).length + (stringify v).length + 4 +
          (stringifyKVs (.cons k2 v2 t)).length := by
      simp [stringifyKVs]
      omega
    have hp : pdepthKVs (.cons k v (.cons k2 v2 t)) =
        1 + max (pdepth v) (pdepthKVs (.cons k2 v2 t)) := rfl
    omega
end

theorem stringifyElems_cons_shape (v : Json) (t : JsonList) :
    ∃ W, stringifyElems (.cons v t) = stringify v ++ W := by
  cases t with
  | nil => exact ⟨[], by simp [stringifyElems]⟩
  | cons w t2 => exact ⟨44 :: stringifyElems (.cons w t2), rfl⟩

theorem stringifyKVs_cons_shape (k : List Nat) (v : Json) (t : JsonKVs) :
    ∃ Z, stringifyKVs (.cons k v t) = 34 :: Z := by
  cases t with
  | nil =>
    refine ⟨(escString k ++ [34]) ++ (58 :: stringify v), ?_⟩
    rw [stringifyKVs, List.cons_append]
  | cons k2 v2 t2 =>
    refine ⟨((escString k ++ [34]) ++ (58 :: stringify v)) ++
      (44 :: stringifyKVs (.cons k2 v2 t2)), ?_⟩
    rw [stringifyKVs, List.cons_append, List.cons_append]

theorem parseMembers_key (g : Nat) (tail : List Nat) :
    parseMembers (g + 1) (34 :: tail) =
      match parseStr tail with
      | none => none
      | some (k, r2) =>
        match skipWs r2 with
        | [] => none
        | d :: r3 =>
          if d = 58 then
            match parseValue g r3 with
            | none => none
            | some (v, r4) =>
              match skipWs r4 with
              | [] => none
              | e :: r5 =>
                if e = 44 then
                  match parseMembers g r5 with
                  | some (kvs, r6) => some (.cons k v kvs, r6)
                  | none => none
                else if e = 125 then some (.cons k v .nil, r5)
                else none
          else none := rfl

/- Round trip: parsing the serialization of a value (followed by a
delimiter or end of input) yields the value back, given enough fuel. -/
mutual
theorem parseValue_rt : ∀ (v : Json) (f : Nat) (rest : List Nat),
    pdepth v ≤ f → DelimHead rest →
    parseValue f (stringify v ++ rest) = some (v, rest)
  | .null, f, rest, hf, _ => by
    obtain ⟨g, rfl⟩ : ∃ g, f = g + 1 := ⟨f - 1, by
      have h1 : pdepth Json.null = 1 := rfl
      omega⟩
    rfl
  | .bool true, f, rest, hf, _ => by
    obtain ⟨g, rfl⟩ : ∃ g, f = g + 1 := ⟨f - 1, by
      have h1 : pdepth (Json.bool true) = 1 := rfl
      omega⟩
    rfl
  | .bool false, f, rest, hf, _ => by
    obtain ⟨g, rfl⟩ : ∃ g, f = g + 1 := ⟨f - 1, by
      have h1 : pdepth (Json.bool false) = 1 := rfl
      omega⟩
    rfl
  | .num n, f, rest, hf, hrest => by
    obtain ⟨g, rfl⟩ : ∃ g, f = g + 1 := ⟨f - 1, by
      have h1 : pdepth (Json.num n) = 1 := rfl
      omega⟩
    by_cases hn : n < 0
    · have hsh : stringify (Json.num n) ++ rest = 45 :: (natDigits n.natAbs ++ rest) := by
        rw [show stringify (Json.num n) = intDigits n from rfl, intDigits, if_pos hn]
        rfl
      rw [hsh, parseValue_negB]
      rw [parseNat_natDigits n.natAbs rest (delimHead_not_digit rest hrest)]
      have hval : -((n.natAbs : Nat) : Int) = n := by omega
      simp only [hval]
    · have hsh : stringify (Json.num n) ++ rest = natDigits n.toNat ++ rest := by
        rw [show stringify (Json.num n) = intDigits n from rfl, intDigits, if_neg hn]
      cases hd : natDigits n.toNat with
      | nil => exact absurd hd (natDigits_ne_nil _)
      | cons c t =>
        have hc : c ∈ natDigits n.toNat := by rw [hd]; simp
        have hb := natDigits_mem _ c hc
        have hdig : isDigitB c = true := by
          simp only [isDigitB, Bool.and_eq_true, decide_eq_true_eq]
          omega
        rw [hsh, hd, List.cons_append, parseValue_digit g c (t ++ rest) hdig]
        rw [← List.cons_append, ← hd]
        rw [parseNat_natDigits n.toNat rest (delimHead_not_digit rest hrest)]
        have hval : ((n.toNat : Nat) : Int) = n := Int.toNat_of_nonneg (by omega)
        simp only [hval]
  | .str s, f, rest, hf, _ => by
    obtain ⟨g, rfl⟩ : ∃ g, f = g + 1 := ⟨f - 1, by
      have h1 : pdepth (Json.str s) = 1 := rfl
      omega⟩
    have hsh : stringify (Json.str s) ++ rest = 34 :: (escString s ++ (34 :: rest)) := by
      show (34 :: (escString s ++ [34])) ++ rest = _
      simp [List.append_assoc]
    rw [hsh, parseValue_strB]
    simp only [parseStr_escString s rest]
  | .arr xs, f, rest, hf, hrest => by
    obtain ⟨g, rfl⟩ : ∃ g, f = g + 1 := ⟨f - 1, by
      have h1 : pdepth (Json.arr xs) = 1 + pdepthElems xs := rfl
      omega⟩
    cases xs with
    | nil => rfl
    | cons v t =>
      have hfe : pdepthElems (.cons v t) ≤ g := by
        have h1 : pdepth (Json.arr (.cons v t)) = 1 + pdepthElems (.cons v t) := rfl
        omega
      obtain ⟨W, hW⟩ := stringifyElems_cons_shape v t
      obtain ⟨c, tl, hh, hws, h93, h125, h44⟩ := stringify_head_spec v
      have hsh : stringify (Json.arr (.cons v t)) ++ rest =
          91 :: (stringifyElems (.cons v t) ++ (93 :: rest)) := by
        show (91 :: (stringifyElems (.cons v t) ++ [93])) ++ rest = _
        simp [List.append_assoc]
      rw [hsh, parseValue_arrB]
      have hcons : stringifyElems (.cons v t) ++ (93 :: rest) =
          c :: (tl ++ (W ++ (93 :: rest))) := by
        rw [hW, hh]
        simp [List.append_assoc]
      rw [hcons, skipWs_cons _ _ hws]
      simp only
      rw [if_neg h93, ← hcons]
      have hrec := parseElems_rt (.cons v t) g rest
        (fun h => JsonList.noConfusion h) hfe
      simp only [hrec]
  | .obj kvs, f, rest, hf, hrest => by
    obtain ⟨g, rfl⟩ : ∃ g, f = g + 1 := ⟨f - 1, by
      have h1 : pdepth (Json.obj kvs) = 1 + pdepthKVs kvs := rfl
      omega⟩
    cases kvs with
    | nil => rfl
    | cons k v t =>
      have hfk : pdepthKVs (.cons k v t) ≤ g := by
        have h1 : pdepth (Json.obj (.cons k v t)) = 1 + pdepthKVs (.cons k v t) := rfl
        omega
      obtain ⟨Z, hZ⟩ := stringifyKVs_cons_shape k v t
      have hsh : stringify (Json.obj (.cons k v t)) ++ rest =
          123 :: (stringifyKVs (.cons k v t) ++ (125 :: rest)) := by
        show (123 :: (stringifyKVs (.cons k v t) ++ [125])) ++ rest = _
        simp [List.append_assoc]
      rw [hsh, parseValue_objB]
      have hcons : stringifyKVs (.cons k v t) ++ (125 :: rest) =
          34 :: (Z ++ (125 :: rest)) := by
        rw [hZ]
        rfl
      rw [hcons, skipWs_cons 34 _ rfl]
      simp only
      rw [if_neg (by omega : ¬ (34 : Nat) = 125), ← hcons]
      have hrec := parseMembers_rt (.cons k v t) g rest
        (fun h => JsonKVs.noConfusion h) hfk
      simp only [hrec]
theorem parseElems_rt : ∀ (xs : JsonList) (f : Nat) (rest : List Nat),
    xs ≠ .nil → pdepthElems xs ≤ f →
    parseElems f (stringifyElems xs ++ (93 :: rest)) = some (xs, rest)
  | .nil, _, _, hne, _ => absurd rfl hne
  | .cons v t, f, rest, _, hf => by
    obtain ⟨g, rfl⟩ : ∃ g, f = g + 1 := ⟨f - 1, by
      have h1 : pdepthElems (.cons v t) = 1 + max (pdepth v) (pdepthElems t) := rfl
      omega⟩
    have hpv : pdepth v ≤ g := by
      have h1 : pdepthElems (.cons v t) = 1 + max (pdepth v) (pdepthElems t) := rfl
      omega
    cases t with
    | nil =>
      have hv := parseValue_rt v g (93 :: rest) hpv (Or.inr ⟨rest, Or.inr (Or.inl rfl)⟩)
      have hsh : stringifyElems (.cons v .nil) ++ (93 :: rest) =
          stringify v ++ (93 :: rest) := rfl
      rw [hsh, parseElems]
      simp only [hv]
      rfl
    | cons w t2 =>
      have hft : pdepthElems (.cons w t2) ≤ g := by
        have h1 : pdepthElems (.cons v (.cons w t2)) =
            1 + max (pdepth v) (pdepthElems (.cons w t2)) := rfl
        omega
      have hv := parseValue_rt v g
        (44 :: (stringifyElems (.cons w t2) ++ (93 :: rest))) hpv
        (Or.inr ⟨_, Or.inl rfl⟩)
      have hsh : stringifyElems (.cons v (.cons w t2)) ++ (93 :: rest) =
          stringify v ++ (44 :: (stringifyElems (.cons w t2) ++ (93 :: rest))) := by
        show (stringify v ++ (44 :: stringifyElems (.cons w t2))) ++ (93 :: rest) = _
        simp [List.append_assoc]
      rw [hsh, parseElems]
      simp only [hv]
      have hsw : skipWs (44 :: (stringifyElems (.cons w t2) ++ (93 :: rest))) =
          44 :: (stringifyElems (.cons w t2) ++ (93 :: rest)) := skipWs_cons _ _ rfl
      simp only [hsw, if_true, if_false]
      have hrec := parseElems_rt (.cons w t2) g rest
        (fun h => JsonList.noConfusion h) hft
      simp only [hrec]
theorem parseMembers_rt : ∀ (kvs : JsonKVs) (f : Nat) (rest : List Nat),
    kvs ≠ .nil → pdepthKVs kvs ≤ f →
    parseMembers f (stringifyKVs kvs ++ (125 :: rest)) = some (kvs, rest)
  | .nil, _, _, hne, _ => absurd rfl hne
  | .cons k v t, f, rest, _, hf => by
    obtain ⟨g, rfl⟩ : ∃ g, f = g + 1 := ⟨f - 1, by
      have h1 : pdepthKVs (.cons k v t) = 1 + max (pdepth v) (pdepthKVs t) := rfl
      omega⟩
    have hpv : pdepth v ≤ g := by
      have h1 : pdepthKVs (.cons k v t) = 1 + max (pdepth v) (pdepthKVs t) := rfl
      omega
    cases t with
    | nil =>
      have hsh : stringifyKVs (.cons k v .nil) ++ (125 :: rest) =
          34 :: (escString k ++ (34 :: (58 :: (stringify v ++ (125 :: rest))))) := by
        show ((34 :: (escString k ++ [34])) ++ (58 :: stringify v)) ++ (125 :: rest) = _
        simp [List.append_assoc]
      rw [hsh, parseMembers_key]
      have hstr := parseStr_escString k (58 :: (stringify v ++ (125 :: rest)))
      simp only [hstr]
      have hsw58 : skipWs (58 :: (stringify v ++ (125 :: rest))) =
          58 :: (stringify v ++ (125 :: rest)) := skipWs_cons _ _ rfl
      simp only [hsw58, if_true, if_false]
      have hv := parseValue_rt v g (125 :: rest) hpv (Or.inr ⟨rest, Or.inr (Or.inr rfl)⟩)
      simp only [hv]
      have hsw125 : skipWs (125 :: rest) = 125 :: rest := skipWs_cons _ _ rfl
      simp only [hsw125, if_true, if_false]
      rw [if_neg (by omega : ¬ (125 : Nat) = 44)]
    | cons k2 v2 t2 =>
      have hft : pdepthKVs (.cons k2 v2 t2) ≤ g := by
        have h1 : pdepthKVs (.cons k v (.cons k2 v2 t2)) =
            1 + max (pdepth v) (pdepthKVs (.cons k2 v2 t2)) := rfl
        omega
      have hsh : stringifyKVs (.cons k v (.cons k2 v2 t2)) ++ (125 :: rest) =
          34 :: (escString k ++ (34 :: (58 :: (stringify v ++
            (44 :: (stringifyKVs (.cons k2 v2 t2) ++ (125 :: rest))))))) := by
        show (((34 :: (escString k ++ [34])) ++ (58 :: stringify v)) ++
            (44 :: stringifyKVs (.cons k2 v2 t2))) ++ (125 :: rest) = _
        simp [List.append_assoc]
      rw [hsh, parseMembers_key]
      have hstr := parseStr_escString k
        (58 :: (stringify v ++ (44 :: (stringifyKVs (.cons k2 v2 t2) ++ (125 :: rest)))))
      simp only [hstr]
      have hsw58 : skipWs (58 :: (stringify v ++
          (44 :: (stringifyKVs (.cons k2 v2 t2) ++ (125 :: rest))))) =
          58 :: (stringify v ++
            (44 :: (stringifyKVs (.cons k2 v2 t2) ++ (125 :: rest)))) :=
        skipWs_cons _ _ rfl
      simp only [hsw58, if_true, if_false]
      have hv := parseValue_rt v g
        (44 :: (stringifyKVs (.cons k2 v2 t2) ++ (125 :: rest))) hpv
        (Or.inr ⟨_, Or.inl rfl⟩)
      simp only [hv]
      have hsw44 : skipWs (44 :: (stringifyKVs (.cons k2 v2 t2) ++ (125 :: rest))) =
          44 :: (stringifyKVs (.cons k2 v2 t2) ++ (125 :: rest)) := skipWs_cons _ _ rfl
      simp only [hsw44, if_true, if_false]
      have hrec := parseMembers_rt (.cons k2 v2 t2) g rest
        (fun h => JsonKVs.noConfusion h) hft
      simp only [hrec]
end

theorem jsonParse_stringify (v : Json) : jsonParse (stringify v) = some v := by
  have hf : pdepth v ≤ (stringify v).length + 1 := by
    have := pdepth_le v
    omega
  have h := parseValue_rt v ((stringify v).length + 1) [] hf (Or.inl rfl)
  rw [List.append_nil] at h
  rw [jsonParse, h]
  rfl

/-- C7: encoding a decoded and untransformed message (fresh
`Content-Length` header plus compact serialization) and feeding the frame
back through the codec decodes to a value deep-equal to the original, and
the re-forwarded frame is byte-identical. -/
theorem claim7_encode_decode_roundtrip (v : Json) (dir : Direction) :
    drain tsServerCfg dir (encode v) =
      ([Output.logEntry dir (.msg v), Output.forward (encode v)], []) := by
  have henc : encode v = mkFrame (stringify v) := rfl
  rw [henc, drain_mkFrame]
  rw [handleBody_parsed tsServerCfg dir _ _ v (jsonParse_stringify v)]
  have hfin : handleParsed tsServerCfg dir (mkFrame (stringify v)) (stringify v)
      (applyTransform tsServerCfg v) =
      [Output.logEntry dir (.msg v), Output.forward (mkFrame (stringify v))] := rfl
  rw [hfin]
